import Mathlib

/-!
Shallow embedding of the inkess-app RAG core (src/src-tauri/src/rag/) and
verification of its specification claims.

The embedding covers:
* `chunker.rs` — token estimation, CJK detection, markdown/code/plain chunking,
  the shared subdivision loop (`subdivide_lines`);
* `store.rs`  — the per-project store (`files`/`chunks`/`vec_chunks` tables)
  modelled as lists of rows, with `upsert_file`, `insert_chunk`, `delete_file`,
  `get_file_mtime` and the row counters;
* `indexer.rs` — `index_all` / `index_single_file`, with the filesystem and the
  embedding engine abstracted as explicit data (`FileEntry`, an `embedBatch`
  function passed in);
* `extractor.rs` — `SKIP_DIRS`, `detect_file_type` and `should_index`, with
  `std::fs::metadata` abstracted as an optional `Meta` value.

Machine integers are modelled as `Nat`/`Int` (no arithmetic in the claims
approaches any overflow boundary: all counts are small and Rust `usize`/`u32`
arithmetic in the mirrored code paths only increments and compares).
-/

namespace Inkess

/-! ## Rust string primitives

Rust's `str::lines`, `char::is_whitespace`, `str::split_whitespace`,
`str::trim`, `str::trim_start_matches('#')` and `str::starts_with('#')`
are mirrored over `String.toList` (Lean strings are sequences of Unicode
scalar values, exactly like Rust's `char` iteration). -/

/-- Rust `char::is_whitespace`: the Unicode `White_Space` property. -/
def rustIsWhitespace (c : Char) : Bool :=
  let n := c.toNat
  (0x09 ≤ n && n ≤ 0x0D) || n = 0x20 || n = 0x85 || n = 0xA0 || n = 0x1680 ||
  (0x2000 ≤ n && n ≤ 0x200A) || n = 0x2028 || n = 0x2029 || n = 0x202F ||
  n = 0x205F || n = 0x3000

/-- Count the whitespace-delimited words of a character sequence
(`str::split_whitespace().count()`); `inWord` records whether the previous
character was part of a word, `acc` the words counted so far. -/
def countWordsAux (acc : Nat) : List Char → Bool → Nat
  | [], _ => acc
  | c :: rest, inWord =>
    if rustIsWhitespace c then countWordsAux acc rest false
    else countWordsAux (if inWord then acc else acc + 1) rest true

/-- `text.split_whitespace().count()` of Rust. -/
def countWords (s : String) : Nat := countWordsAux 0 s.toList false

/-- `text.chars().count()` of Rust (tail-recursive length). -/
def charCountAux (acc : Nat) : List Char → Nat
  | [] => acc
  | _ :: rest => charCountAux (acc + 1) rest

/-- The number of Unicode scalar values of a text. -/
def charCount (s : String) : Nat := charCountAux 0 s.toList

/-- `text.chars().filter(|c| is_cjk(*c)).count()` of Rust (with `is_cjk`
defined below). -/
def cjkCountAux (p : Char → Bool) (acc : Nat) : List Char → Nat
  | [] => acc
  | c :: rest => cjkCountAux p (if p c then acc + 1 else acc) rest

/-- Strip one leading `'\r'` (used on a reversed line to drop a trailing
carriage return, as Rust's `lines()` does for `\r\n` endings). -/
def stripLeadCR : List Char → List Char
  | [] => []
  | c :: l => if c = '\r' then l else c :: l

/-- Split a character list at `'\n'`; `rcur` holds the current line reversed.
A piece terminated by `'\n'` has one trailing `'\r'` stripped (Rust strips the
`'\r'` only when a `'\n'` was present); the final piece is emitted as-is. -/
def linesAux (rcur : List Char) : List Char → List String
  | [] => [String.mk rcur.reverse]
  | c :: rest =>
    if c = '\n' then String.mk (stripLeadCR rcur).reverse :: linesAux [] rest
    else linesAux (c :: rcur) rest

/-- Drop the final element when it is the empty string (Rust's `lines()`
yields no final empty line for input ending in `'\n'`). -/
def dropLastEmpty : List String → List String
  | [] => []
  | [x] => if x = "" then [] else [x]
  | x :: rest => x :: dropLastEmpty rest

/-- Rust `str::lines` over the whole input. -/
def rustLines (s : String) : List String := dropLastEmpty (linesAux [] s.toList)

/-- Rust `str::trim` (both ends, Unicode whitespace). -/
def rustTrim (s : String) : String :=
  String.mk
    (((s.toList.dropWhile rustIsWhitespace).reverse.dropWhile rustIsWhitespace).reverse)

/-- Rust `line.trim_start_matches('#')`: drop every leading `'#'`. -/
def stripHashes (s : String) : String :=
  String.mk (s.toList.dropWhile (fun c => c = '#'))

/-- Rust `line.starts_with('#')`. -/
def startsWithHash (s : String) : Bool :=
  match s.toList with
  | '#' :: _ => true
  | _ => false

/-! ## chunker.rs -/

inductive FileType where
  | Markdown | Code | PlainText | Pdf | Docx | Xlsx | Unsupported
deriving DecidableEq, Repr

structure Chunk where
  content : String
  start_line : Nat
  end_line : Nat
  heading : Option String
deriving DecidableEq, Repr

def TARGET_TOKENS : Nat := 300
def MAX_TOKENS : Nat := 500
def OVERLAP_TOKENS : Nat := 50

/-- `is_cjk` of chunker.rs: the eight CJK-related scalar-value ranges. -/
def is_cjk (c : Char) : Bool :=
  let n := c.toNat
  (0x4E00 ≤ n && n ≤ 0x9FFF) || (0x3400 ≤ n && n ≤ 0x4DBF) ||
  (0xF900 ≤ n && n ≤ 0xFAFF) || (0x3000 ≤ n && n ≤ 0x303F) ||
  (0x3040 ≤ n && n ≤ 0x309F) || (0x30A0 ≤ n && n ≤ 0x30FF) ||
  (0xAC00 ≤ n && n ≤ 0xD7AF) || (0xFF00 ≤ n && n ≤ 0xFFEF)

/-- The CJK-character count of a text. -/
def cjkCount (s : String) : Nat := cjkCountAux is_cjk 0 s.toList

/-- `estimate_tokens` of chunker.rs: if the CJK characters outnumber a third
of all characters (Rust integer division), estimate `(chars*2 + 2) / 3`;
otherwise the whitespace word count, floored at 1. -/
def estimate_tokens (text : String) : Nat :=
  if cjkCount text > charCount text / 3 then
    (charCount text * 2 + 2) / 3
  else
    max (countWords text) 1

/-- Rust `lines.join("\n")`: the lines interleaved with single newlines. -/
def joinNl : List String → String
  | [] => ""
  | [s] => s
  | s :: rest => s ++ "\n" ++ joinNl rest

/-- Weight of line `j` in the subdivision scans: its token estimate plus one
for the newline (`estimate_tokens(lines[j]) + 1`). -/
def lineTok (ls : List String) (j : Nat) : Nat :=
  estimate_tokens (ls.getD j "") + 1

/-- Sum of `n` line weights starting at index `a`. -/
def wsumC (ls : List String) (a : Nat) : Nat → Nat
  | 0 => 0
  | n + 1 => lineTok ls a + wsumC ls (a + 1) n

/-- Sum of the line weights over the index interval `[a, b)`. -/
def wsum (ls : List String) (a b : Nat) : Nat := wsumC ls a (b - a)

/-- The forward scan of `subdivide_lines`, with its iteration count made
explicit as a structural `fuel` argument (each iteration increments `e`, so
`fuel = ls.length - e` makes the fuel-0 case coincide with the loop guard):
`while end < lines.len() && tokens < TARGET_TOKENS { tokens += estimate_tokens(lines[end]) + 1; end += 1 }`. -/
def scanForwardF (ls : List String) : Nat → Nat → Nat → Nat
  | 0, e, _ => e
  | fuel + 1, e, tokens =>
    if e < ls.length ∧ tokens < TARGET_TOKENS then
      scanForwardF ls fuel (e + 1) (tokens + lineTok ls e)
    else e

/-- The forward scan entered at index `e` with `tokens` accumulated. -/
def scanForward (ls : List String) (e tokens : Nat) : Nat :=
  scanForwardF ls (ls.length - e) e tokens

/-- The backward overlap scan of `subdivide_lines`, fuelled the same way
(each iteration decrements `new_start`, so `fuel = ns - start` makes the
fuel-0 case coincide with the loop guard):
`while new_start > start && overlap_tokens < OVERLAP_TOKENS { new_start -= 1; overlap_tokens += estimate_tokens(lines[new_start]) + 1 }`. -/
def scanBackF (ls : List String) (start : Nat) : Nat → Nat → Nat → Nat
  | 0, ns, _ => ns
  | fuel + 1, ns, overlap =>
    if start < ns ∧ overlap < OVERLAP_TOKENS then
      scanBackF ls start fuel (ns - 1) (overlap + lineTok ls (ns - 1))
    else ns

/-- The backward scan from `ns` down towards `start`. -/
def scanBack (ls : List String) (start ns overlap : Nat) : Nat :=
  scanBackF ls start (ns - start) ns overlap

/-- The main loop of `subdivide_lines` (the `while start < lines.len()` loop),
fuelled structurally; `start` strictly increases each iteration, so any
`fuel ≥ ls.length - start` (the wrapper passes `ls.length`) leaves the guard
`start < ls.length` in control. Each iteration scans forward to
`scanForward ls start 0`, emits that span as a chunk; if the span did not
reach the end it scans backward for the overlap and resumes from the new
start (or from the emission boundary when the backward scan fell back to
`start`). -/
def subLoopF (ls : List String) (b : Nat) (hd : Option String) :
    Nat → Nat → List Chunk
  | 0, _ => []
  | fuel + 1, start =>
    if start < ls.length then
      if ls.length ≤ scanForward ls start 0 then
        [⟨joinNl ((ls.drop start).take (scanForward ls start 0 - start)),
          b + start + 1, b + scanForward ls start 0, hd⟩]
      else
        ⟨joinNl ((ls.drop start).take (scanForward ls start 0 - start)),
          b + start + 1, b + scanForward ls start 0, hd⟩ ::
        subLoopF ls b hd fuel
          (if start < scanBack ls start (scanForward ls start 0) 0
           then scanBack ls start (scanForward ls start 0) 0
           else scanForward ls start 0)
    else []

/-- `subdivide_lines` of chunker.rs. -/
def subdivide_lines (ls : List String) (base_line : Nat) (heading : Option String) :
    List Chunk :=
  if ls.isEmpty then []
  else
    if estimate_tokens (joinNl ls) ≤ MAX_TOKENS then
      [⟨joinNl ls, base_line + 1, base_line + ls.length, heading⟩]
    else
      subLoopF ls base_line heading ls.length 0

/-- The section-collection loop of `chunk_markdown`, fuelled structurally
(the index `i` increments each iteration, so `fuel = ls.length - i` makes the
fuel-0 case coincide with loop exit): walks the lines keeping the current
heading and section start, pushing `(heading, start, i-1)` at each heading
line after the first line, and finally `(heading, start, len-1)`. -/
def mdSectionsF (ls : List String) :
    Nat → Nat → Option String → Nat → List (Option String × Nat × Nat)
  | 0, i, cur, secStart => [(cur, secStart, i - 1)]
  | fuel + 1, i, cur, secStart =>
    if i < ls.length then
      if startsWithHash (ls.getD i "") then
        if 0 < i then
          (cur, secStart, i - 1) ::
            mdSectionsF ls fuel (i + 1) (some (rustTrim (stripHashes (ls.getD i "")))) i
        else
          mdSectionsF ls fuel (i + 1) (some (rustTrim (stripHashes (ls.getD i "")))) i
      else
        mdSectionsF ls fuel (i + 1) cur secStart
    else [(cur, secStart, i - 1)]

/-- The section list of `chunk_markdown`. -/
def mdSections (ls : List String) : List (Option String × Nat × Nat) :=
  mdSectionsF ls ls.length 0 none 0

/-- Emit the chunks of one markdown section `(heading, start, end)`:
the whole span when its estimate is within the cap, else its subdivision. -/
def mdSectionChunks (ls : List String) (sec : Option String × Nat × Nat) :
    List Chunk :=
  if estimate_tokens (joinNl ((ls.drop sec.2.1).take (sec.2.2 + 1 - sec.2.1)))
      ≤ MAX_TOKENS then
    [⟨joinNl ((ls.drop sec.2.1).take (sec.2.2 + 1 - sec.2.1)),
      sec.2.1 + 1, sec.2.2 + 1, sec.1⟩]
  else
    subdivide_lines ((ls.drop sec.2.1).take (sec.2.2 + 1 - sec.2.1)) sec.2.1 sec.1

/-- `chunk_markdown` of chunker.rs over the line list. -/
def chunk_markdown_lines (ls : List String) : List Chunk :=
  if ls.isEmpty then []
  else (mdSections ls).flatMap (mdSectionChunks ls)

/-- The block-collection loop of `chunk_code`, fuelled structurally
(`fuel = all.length - i` makes the fuel-0 case coincide with loop exit):
split at runs of two or more blank lines; a block (which includes its
trailing blank run) is subdivided when its estimate is positive; the final
block runs to the end of the file. -/
def chunkCodeF (all : List String) : Nat → Nat → Nat → Nat → List Chunk
  | 0, _, blockStart, _ =>
    if blockStart < all.length then subdivide_lines (all.drop blockStart) blockStart none
    else []
  | fuel + 1, i, blockStart, blank =>
    if i < all.length then
      if rustTrim (all.getD i "") = "" then
        chunkCodeF all fuel (i + 1) blockStart (blank + 1)
      else
        if 2 ≤ blank ∧ blockStart < i then
          (if 0 < estimate_tokens
                (joinNl ((all.drop blockStart).take (i - blockStart)))
           then subdivide_lines ((all.drop blockStart).take (i - blockStart)) blockStart none
           else []) ++ chunkCodeF all fuel (i + 1) i 0
        else
          chunkCodeF all fuel (i + 1) blockStart 0
    else
      if blockStart < all.length then subdivide_lines (all.drop blockStart) blockStart none
      else []

/-- `chunk_code` of chunker.rs over the line list. -/
def chunk_code_lines (ls : List String) : List Chunk :=
  if ls.isEmpty then [] else chunkCodeF ls ls.length 0 0 0

/-- The paragraph loop of `chunk_plain`, fuelled structurally
(`fuel = all.length - i` makes the fuel-0 case coincide with loop exit):
a blank line following a non-blank one closes the paragraph
`[para_start, i)`; the next paragraph starts at `i + 1`; the final paragraph
runs to the end of the file. -/
def chunkPlainF (all : List String) : Nat → Nat → Nat → Bool → List Chunk
  | 0, _, paraStart, _ =>
    if paraStart < all.length then subdivide_lines (all.drop paraStart) paraStart none
    else []
  | fuel + 1, i, paraStart, prevBlank =>
    if i < all.length then
      if rustTrim (all.getD i "") = "" ∧ prevBlank = false ∧ paraStart < i then
        subdivide_lines ((all.drop paraStart).take (i - paraStart)) paraStart none ++
          chunkPlainF all fuel (i + 1) (i + 1) (rustTrim (all.getD i "") = "")
      else
        chunkPlainF all fuel (i + 1) paraStart (rustTrim (all.getD i "") = "")
    else
      if paraStart < all.length then subdivide_lines (all.drop paraStart) paraStart none
      else []

/-- `chunk_plain` of chunker.rs over the line list. -/
def chunk_plain_lines (ls : List String) : List Chunk :=
  if ls.isEmpty then [] else chunkPlainF ls ls.length 0 0 false

def chunk_markdown (content : String) : List Chunk :=
  chunk_markdown_lines (rustLines content)

def chunk_code (content : String) : List Chunk :=
  chunk_code_lines (rustLines content)

def chunk_plain (content : String) : List Chunk :=
  chunk_plain_lines (rustLines content)

/-- `chunk_text` of chunker.rs. -/
def chunk_text (content : String) (file_type : FileType) : List Chunk :=
  match file_type with
  | .Markdown => chunk_markdown content
  | .Code => chunk_code content
  | .PlainText | .Pdf | .Docx | .Xlsx => chunk_plain content
  | .Unsupported => []

/-! ## extractor.rs

A filesystem path is modelled as its list of `Normal` components (the only
component kind `should_index` inspects); the outcome of `std::fs::metadata`
is modelled as an optional `Meta` record. -/

def MAX_INDEX_SIZE : Nat := 10 * 1024 * 1024

def SKIP_DIRS : List String :=
  ["node_modules", ".git", "target", "dist", "build", ".next",
   "__pycache__", ".venv", "venv", ".inkess", ".DS_Store",
   "vendor", "coverage", ".cache", ".parcel-cache"]

def TEXT_EXTENSIONS : List String :=
  ["md", "mdx", "txt", "rst", "adoc", "org",
   "html", "htm", "css", "scss", "less", "js", "jsx", "ts", "tsx",
   "vue", "svelte",
   "rs", "py", "go", "java", "kt", "swift", "dart", "c", "cpp", "h", "hpp",
   "cs", "rb", "php", "lua", "r", "jl", "zig", "nim", "ex", "exs",
   "hs", "ml", "clj", "scala", "groovy",
   "json", "yaml", "yml", "toml", "xml", "csv", "ini", "conf", "cfg",
   "env", "properties", "lock",
   "sh", "bash", "zsh", "fish", "ps1", "bat", "cmd",
   "sql", "graphql", "gql", "proto", "dockerfile",
   "makefile", "cmake", "gradle"]

/-- The extensions that `detect_file_type` routes to `PlainText` within the
`TEXT_EXTENSIONS` table (config/data formats). -/
def CONFIG_EXTENSIONS : List String :=
  ["json", "yaml", "yml", "toml", "xml", "csv", "ini", "conf", "cfg",
   "env", "properties", "lock"]

/-- The characters after the last `'.'` of a list, when a `'.'` occurs. -/
def afterLastDot : List Char → Option (List Char)
  | [] => none
  | c :: rest =>
    match afterLastDot rest with
    | some e => some e
    | none => if c = '.' then some rest else none

/-- Rust `Path::extension` on a file name: `None` when there is no embedded
`'.'`, or when the name begins with `'.'` and has no other `'.'` (the last
dot must have a non-empty prefix); otherwise the portion after the final
`'.'`. -/
def fileExt (name : String) : Option String :=
  match name.toList with
  | [] => none
  | _ :: rest => (afterLastDot rest).map String.mk

/-- ASCII lower-casing of a name (extensions and the extensionless-name
allow-list are ASCII, where Rust's `to_lowercase` agrees). -/
def lowerStr (s : String) : String := String.mk (s.toList.map Char.toLower)

/-- The file name of a path (its last component; `""` for an empty path,
matching the `unwrap_or("")`). -/
def fileName (path : List String) : String := (path.getLast?).getD ""

/-- `detect_file_type` of extractor.rs. -/
def detect_file_type (path : List String) : FileType :=
  let ext := lowerStr ((fileExt (fileName path)).getD "")
  match ext with
  | "md" | "mdx" => .Markdown
  | "txt" | "rst" | "adoc" | "org" => .PlainText
  | "pdf" => .Pdf
  | "docx" => .Docx
  | "xlsx" | "xls" | "ods" => .Xlsx
  | "" =>
    match lowerStr (fileName path) with
    | "readme" | "license" | "changelog" | "makefile"
    | "dockerfile" | "cmakelists.txt" | ".gitignore"
    | ".editorconfig" | ".env" => .PlainText
    | _ => .Unsupported
  | e =>
    if TEXT_EXTENSIONS.contains e then
      if CONFIG_EXTENSIONS.contains e then .PlainText else .Code
    else .Unsupported

/-- The outcome of `std::fs::metadata` on a path: length in bytes and whether
the entry is a regular file; `none` models a metadata error. -/
structure Meta where
  len : Nat
  isFile : Bool
deriving DecidableEq, Repr

/-- `should_index` of extractor.rs: reject any path with a component in
`SKIP_DIRS`, any path whose metadata is unreadable, oversized or not a
regular file, and any unrecognized type. -/
def should_index (path : List String) (meta : Option Meta) : Bool :=
  if path.any (fun name => SKIP_DIRS.contains name) then false
  else
    match meta with
    | some m =>
      if m.len > MAX_INDEX_SIZE ∨ m.isFile = false then false
      else detect_file_type path ≠ FileType.Unsupported
    | none => false

/-- A path component is hidden when it begins with a dot. -/
def hiddenSeg (s : String) : Bool :=
  match s.toList with
  | '.' :: _ => true
  | _ => false

/-! ## store.rs

The SQLite tables are modelled as lists of rows in insertion order;
`AUTOINCREMENT` row ids as explicit counters.  Embedding vectors are opaque
payloads (`List Int`): none of the claims inspects the float values, only the
pairing of one vector row per chunk row. -/

structure FileRow where
  id : Nat
  path : String
  mtime : Int
  hash : String
deriving DecidableEq, Repr

structure ChunkRow where
  id : Nat
  file_id : Nat
  content : String
  start_line : Nat
  end_line : Nat
  heading : Option String
deriving DecidableEq, Repr

structure VecRow where
  chunk_id : Nat
  embedding : List Int
deriving DecidableEq, Repr

structure Store where
  files : List FileRow
  chunks : List ChunkRow
  vecs : List VecRow
  nextFileId : Nat
  nextChunkId : Nat
deriving DecidableEq, Repr

def Store.empty : Store := ⟨[], [], [], 1, 1⟩

/-- `RagStore::delete_file`: look up the file row for `path`; when absent
return 0; otherwise delete the vectors of its chunks, then its chunks, then
the file row, returning the number of rows removed by the *last* `DELETE`
(the one on the `files` table, as in the source). -/
def Store.delete_file (st : Store) (path : String) : Store × Nat :=
  match st.files.find? (fun f => f.path = path) with
  | none => (st, 0)
  | some f =>
    let cids := (st.chunks.filter (fun c => c.file_id = f.id)).map (fun c => c.id)
    let vecs' := st.vecs.filter (fun v => ¬ cids.contains v.chunk_id)
    let chunks' := st.chunks.filter (fun c => ¬ c.file_id = f.id)
    let deleted := (st.files.filter (fun g => g.id = f.id)).length
    let files' := st.files.filter (fun g => ¬ g.id = f.id)
    ({ st with files := files', chunks := chunks', vecs := vecs' }, deleted)

/-- `RagStore::upsert_file`: delete any existing row for `path` (with its
cascade), insert a fresh row, return the new id. -/
def Store.upsert_file (st : Store) (path : String) (mtime : Int) (hash : String) :
    Store × Nat :=
  let st1 := (st.delete_file path).1
  let fid := st1.nextFileId
  ({ st1 with
      files := st1.files ++ [⟨fid, path, mtime, hash⟩],
      nextFileId := fid + 1 }, fid)

/-- `RagStore::insert_chunk`: append a chunk row and its paired vector row
under a shared generated id. -/
def Store.insert_chunk (st : Store) (file_id : Nat) (content : String)
    (start_line end_line : Nat) (heading : Option String) (embedding : List Int) :
    Store :=
  let cid := st.nextChunkId
  { st with
      chunks := st.chunks ++ [⟨cid, file_id, content, start_line, end_line, heading⟩],
      vecs := st.vecs ++ [⟨cid, embedding⟩],
      nextChunkId := cid + 1 }

/-- `RagStore::get_file_mtime`: the stored mtime of a path, when present. -/
def Store.get_file_mtime (st : Store) (path : String) : Option Int :=
  (st.files.find? (fun f => f.path = path)).map (fun f => f.mtime)

def Store.fileCount (st : Store) : Nat := st.files.length

def Store.chunkCount (st : Store) : Nat := st.chunks.length

/-! ## indexer.rs

`index_all` walks a pre-collected list of entries.  Each entry carries the
outcome of `std::fs::metadata`-based `get_mtime` (`statMtime`, used both in
the top-level loop and inside `index_single_file`) and the outcome of
`extractor::extract_text` (`extractRes`).  The embedding engine is a
parameter `embedBatch` returning one vector per text or an error; the
content hash is a parameter `hashFn`.  Store mutations persist across a
failing file, as they do through `&mut self.store` in the source. -/

structure IndexReport where
  files_indexed : Nat
  files_skipped : Nat
  chunks_created : Nat
deriving DecidableEq, Repr

structure FileEntry where
  rel : String
  statMtime : Except String Int
  extractRes : Except String (String × FileType)
deriving Repr

/-- One batch insertion step: pair the chunks of the batch with the returned
embeddings and append each chunk+vector to the store. -/
def insertEmbedded (st : Store) (fid : Nat) :
    List (Chunk × List Int) → Store
  | [] => st
  | (c, emb) :: rest =>
    insertEmbedded (st.insert_chunk fid c.content c.start_line c.end_line c.heading emb)
      fid rest

/-- The batch loop of `index_single_file`: process chunks in batches of 32,
embedding each batch and inserting chunk+vector rows; an embedding failure
stops the loop but keeps the rows already inserted. -/
def insertBatches (embedBatch : List String → Except String (List (List Int)))
    (st : Store) (fid : Nat) (chunks : List Chunk) : Store × Except String Nat :=
  if chunks.isEmpty then (st, .ok 0)
  else
    match embedBatch ((chunks.take 32).map (fun c => c.content)) with
    | .error e => (st, .error e)
    | .ok embs =>
      let st1 := insertEmbedded st fid ((chunks.take 32).zip embs)
      match insertBatches embedBatch st1 fid (chunks.drop 32) with
      | (st2, .ok n) => (st2, .ok (((chunks.take 32).zip embs).length + n))
      | (st2, .error e) => (st2, .error e)
termination_by chunks.length
decreasing_by
  simp only [List.length_drop]
  cases chunks with
  | nil => simp_all
  | cons a l => simp; omega

/-- `Indexer::index_single_file`: extract, hash, re-read the mtime, upsert
the file row, chunk, and embed/insert in batches; returns the number of
chunks created.  The store component always reflects the mutations performed
before any failure. -/
def index_single_file (embedBatch : List String → Except String (List (List Int)))
    (hashFn : String → String) (st : Store) (e : FileEntry) :
    Store × Except String Nat :=
  match e.extractRes with
  | .error err => (st, .error err)
  | .ok (content, ft) =>
    let hash := hashFn content
    match e.statMtime with
    | .error err => (st, .error err)
    | .ok mtime =>
      let (st1, fid) := st.upsert_file e.rel mtime hash
      let chunks := chunk_text content ft
      if chunks.isEmpty then (st1, .ok 0)
      else insertBatches embedBatch st1 fid chunks

/-- The body of the `index_all` loop, threading the store and the running
report.  A failing `get_mtime` aborts with the error (the `?` at the top of
the loop body); a stored identical mtime skips; any `index_single_file`
error is recovered by counting the file as skipped. -/
def indexStep (embedBatch : List String → Except String (List (List Int)))
    (hashFn : String → String) (st : Store) (rep : IndexReport) (e : FileEntry) :
    Except String (Store × IndexReport) :=
  match e.statMtime with
  | .error err => .error err
  | .ok mtime =>
    match st.get_file_mtime e.rel with
    | some stored =>
      if stored = mtime then
        .ok (st, { rep with files_skipped := rep.files_skipped + 1 })
      else
        match index_single_file embedBatch hashFn st e with
        | (st', .ok n) =>
          .ok (st', { rep with
                        files_indexed := rep.files_indexed + 1,
                        chunks_created := rep.chunks_created + n })
        | (st', .error _) =>
          .ok (st', { rep with files_skipped := rep.files_skipped + 1 })
    | none =>
      match index_single_file embedBatch hashFn st e with
      | (st', .ok n) =>
        .ok (st', { rep with
                      files_indexed := rep.files_indexed + 1,
                      chunks_created := rep.chunks_created + n })
      | (st', .error _) =>
        .ok (st', { rep with files_skipped := rep.files_skipped + 1 })

/-- The `index_all` loop over the collected entries. -/
def indexGo (embedBatch : List String → Except String (List (List Int)))
    (hashFn : String → String) (st : Store) (rep : IndexReport) :
    List FileEntry → Except String (Store × IndexReport)
  | [] => .ok (st, rep)
  | e :: rest =>
    match indexStep embedBatch hashFn st rep e with
    | .error err => .error err
    | .ok (st', rep') => indexGo embedBatch hashFn st' rep' rest

/-- `Indexer::index_all` over a pre-collected entry list. -/
def index_all (embedBatch : List String → Except String (List (List Int)))
    (hashFn : String → String) (st : Store) (entries : List FileEntry) :
    Except String (Store × IndexReport) :=
  indexGo embedBatch hashFn st ⟨0, 0, 0⟩ entries

/-! ## Claim statements and concrete inputs -/

/-- Claim C2 as stated: every per-file error is recovered locally, so
`index_all` always returns a report whose indexed/skipped counts partition
the walked files. -/
def indexAllRecovers (embedBatch : List String → Except String (List (List Int)))
    (hashFn : String → String) (st : Store) (entries : List FileEntry) : Prop :=
  ∃ st' rep, index_all embedBatch hashFn st entries = .ok (st', rep) ∧
    rep.files_indexed + rep.files_skipped = entries.length

/-- Claim C3 as stated, hidden-segment part: a path with a skip-directory or
hidden (dot-initial) segment is never indexed. -/
def skipsHiddenClaim (path : List String) (meta : Option Meta) : Prop :=
  path.any (fun seg => SKIP_DIRS.contains seg || hiddenSeg seg) = true →
    should_index path meta = false

/-- Claim C4 as stated: no chunk estimate exceeds the cap unless a single
line of the chunk alone exceeds it. -/
def capClaim (content : String) (ft : FileType) : Prop :=
  ∀ c ∈ chunk_text content ft,
    estimate_tokens c.content ≤ MAX_TOKENS ∨
      ∃ l ∈ rustLines c.content, MAX_TOKENS < estimate_tokens l

/-- Claim C5 as stated for one subdivided range: when the range weighs at
least the overlap budget, consecutive chunks overlap by at least one line
(chunk line ranges are 1-indexed inclusive, so overlap means the second
chunk starts no later than the first ends). -/
def overlapClaim (ls : List String) (b : Nat) (hd : Option String) : Prop :=
  OVERLAP_TOKENS ≤ estimate_tokens (joinNl ls) →
    List.Chain' (fun c1 c2 => c2.start_line ≤ c1.end_line) (subdivide_lines ls b hd)

/-- Claim C6 as stated, word-count part: outside the CJK-dominant case the
estimator returns exactly the whitespace-delimited word count. -/
def estWordClaim (s : String) : Prop :=
  ¬ 3 * cjkCount s > charCount s → estimate_tokens s = countWords s

/-- Claim C8 as stated, `None` part: a section with no heading text has
heading `None`, hence no chunk ever carries `some ""`. -/
def headingNoneClaim (content : String) : Prop :=
  ∀ c ∈ chunk_markdown content, c.heading ≠ some ""

/-- The nearest heading line at or before index `k` (the reference notion for
the amended claim C8). -/
def lastHead (ls : List String) : Nat → Option Nat
  | 0 => if startsWithHash (ls.getD 0 "") then some 0 else none
  | k + 1 => if startsWithHash (ls.getD (k + 1) "") then some (k + 1) else lastHead ls k

/-- The heading `chunk_markdown` should attach according to `lastHead`. -/
def headingFor (ls : List String) (k : Nat) : Option String :=
  (lastHead ls k).map (fun j => rustTrim (stripHashes (ls.getD j "")))

/-- `n` CJK ideographs (U+65E5). -/
def cjkChars : Nat → List Char
  | 0 => []
  | n + 1 => '日' :: cjkChars n

/-- A line of `n` CJK ideographs. -/
def cjkN (n : Nat) : String := String.mk (cjkChars n)

/-- C4 counterexample input: two lines of 374 and 376 ideographs
(estimates 250 and 251), chunked together into a single 501-token chunk. -/
def t4 : String := cjkN 374 ++ "\n" ++ cjkN 376

/-- C5 counterexample input: a 448-ideograph line (estimate 299, weight 300)
followed by a 302-ideograph line; the backward scan falls back to the chunk
start, so the two produced chunks do not overlap. -/
def lsC5 : List String := [cjkN 448, cjkN 302]

/-- C1 failing input: an indexed file owning two chunks (and their vectors). -/
def storeC1 : Store :=
  ⟨[⟨1, "a.md", 5, "h1"⟩],
   [⟨1, 1, "x", 1, 1, none⟩, ⟨2, 1, "y", 2, 2, none⟩],
   [⟨1, [0]⟩, ⟨2, [0]⟩], 2, 3⟩

/-- A trivial embedding engine for witnesses: one fixed vector per text. -/
def embed0 : List String → Except String (List (List Int)) :=
  fun ts => .ok (ts.map (fun _ => [1]))

/-- A trivial content hash for witnesses. -/
def hash0 : String → String := fun s => s

/-- An entry whose `stat` fails (file disappeared between walk and loop). -/
def badEntry : FileEntry :=
  ⟨"gone.md", .error "Cannot stat file: No such file",
   .error "Cannot stat file: No such file"⟩

/-- An entry that indexes cleanly. -/
def goodEntry : FileEntry := ⟨"ok.md", .ok 7, .ok ("hello", .PlainText)⟩

/-- An entry whose extraction fails but whose stat succeeds. -/
def extractFailEntry : FileEntry := ⟨"bad.pdf", .ok 3, .error "PDF extraction failed"⟩

/-- A store already holding `ok.md` at mtime 7 with one chunk. -/
def storeC7 : Store :=
  ⟨[⟨1, "ok.md", 7, "hello"⟩], [⟨1, 1, "hello", 1, 1, none⟩], [⟨1, [1]⟩], 2, 2⟩

/-- A chunk's stored content is the newline-join of the input's lines from
`start_line` to `end_line` (1-indexed, inclusive). -/
def ContentOK (ls : List String) (c : Chunk) : Prop :=
  c.content = joinNl ((ls.drop (c.start_line - 1)).take (c.end_line + 1 - c.start_line))

/-- A chunk either keeps its estimate within the cap, or was emitted by the
forward scan, whose accumulated weight over the chunk's lines short of the
last stays under the target. -/
def CapOK (ls : List String) (c : Chunk) : Prop :=
  estimate_tokens c.content ≤ MAX_TOKENS ∨
    wsum ls (c.start_line - 1) (c.end_line - 1) < TARGET_TOKENS

/-- Line-range ordering between chunks in file order. -/
def chunkMono (c1 c2 : Chunk) : Prop :=
  c1.start_line ≤ c2.start_line ∧ c1.end_line ≤ c2.end_line

/-- A well-formed markdown section `(heading, start, end)`: non-empty span in
bounds, heading determined by its first line (a heading line gives its
stripped text; otherwise the section is the leading one with no heading),
and no heading line strictly inside. -/
def SecOK (ls : List String) (sec : Option String × Nat × Nat) : Prop :=
  sec.2.1 ≤ sec.2.2 ∧ sec.2.2 < ls.length ∧
  (startsWithHash (ls.getD sec.2.1 "") = true →
    sec.1 = some (rustTrim (stripHashes (ls.getD sec.2.1 "")))) ∧
  (startsWithHash (ls.getD sec.2.1 "") = false → sec.2.1 = 0 ∧ sec.1 = none) ∧
  (∀ j, sec.2.1 < j → j ≤ sec.2.2 → startsWithHash (ls.getD j "") = false)

/-! ## Theorems -/

/-- C1: `delete_file` does cascade correctly and does return 0 for a path
never indexed, but on an indexed path it returns the number of rows removed
from the `files` table (always 1), not the number of chunks removed: on a
file owning 2 chunks it returns 1.  `auto_cleanup` accumulates this value
into `CleanupReport.chunks_removed`, so the claim (and the spec's
`removed_chunk_count`) describe the intent and the code under-reports. -/
theorem C1_delete_file_eval :
    storeC1.chunkCount = 2 ∧
    storeC1.delete_file "a.md" = (⟨[], [], [], 2, 3⟩, 1) ∧
    storeC1.delete_file "missing.md" = (storeC1, 0) := by decide

/-- C2 counterexample: a file whose `stat` fails (`get_mtime` at the top of
the `index_all` loop propagates with `?`) aborts the whole batch: the walk
does not continue to the remaining entries and no report is produced. -/
theorem C2_counterexample :
    ¬ indexAllRecovers embed0 hash0 Store.empty [badEntry, goodEntry] := by
  intro h
  obtain ⟨st', rep, h, -⟩ := h
  have hE : index_all embed0 hash0 Store.empty [badEntry, goodEntry] =
      .error "Cannot stat file: No such file" := rfl
  rw [hE] at h
  exact Except.noConfusion h

theorem indexStep_ok (embedB : List String → Except String (List (List Int)))
    (hashF : String → String) (st : Store) (rep : IndexReport) (e : FileEntry)
    (m : Int) (hm : e.statMtime = Except.ok m) :
    ∃ st' rep', indexStep embedB hashF st rep e = .ok (st', rep') ∧
      rep'.files_indexed + rep'.files_skipped =
        rep.files_indexed + rep.files_skipped + 1 := by
  rcases hg : st.get_file_mtime e.rel with - | stored
  · rcases hs : index_single_file embedB hashF st e with ⟨stx, res⟩
    cases res <;>
      · simp only [indexStep, hm, hg, hs]
        exact ⟨_, _, rfl, by dsimp only; omega⟩
  · by_cases heq : stored = m
    · simp only [indexStep, hm, hg, if_pos heq]
      exact ⟨_, _, rfl, by dsimp only; omega⟩
    · rcases hs : index_single_file embedB hashF st e with ⟨stx, res⟩
      cases res <;>
        · simp only [indexStep, hm, hg, if_neg heq, hs]
          exact ⟨_, _, rfl, by dsimp only; omega⟩

theorem indexGo_ok (embedB : List String → Except String (List (List Int)))
    (hashF : String → String) :
    ∀ (entries : List FileEntry) (st : Store) (rep : IndexReport),
      (∀ e ∈ entries, ∃ m, e.statMtime = Except.ok m) →
      ∃ st' rep', indexGo embedB hashF st rep entries = .ok (st', rep') ∧
        rep'.files_indexed + rep'.files_skipped =
          rep.files_indexed + rep.files_skipped + entries.length := by
  intro entries
  induction entries with
  | nil => intro st rep _; exact ⟨st, rep, rfl, by simp⟩
  | cons e rest ih =>
    intro st rep hall
    obtain ⟨m, hm⟩ := hall e (List.mem_cons_self e rest)
    obtain ⟨st1, rep1, hstep, hsum⟩ := indexStep_ok embedB hashF st rep e m hm
    obtain ⟨st', rep', hgo, hsum'⟩ :=
      ih st1 rep1 (fun x hx => hall x (List.mem_cons_of_mem e hx))
    refine ⟨st', rep', ?_, ?_⟩
    · simpa [indexGo, hstep] using hgo
    · simp only [List.length_cons]; omega

/-- C2 amended: per-file errors *inside* `index_single_file` (extraction,
chunking, embedding) are recovered locally — the file is counted as skipped,
the store is left as mutated so far, and the walk continues — and whenever
every entry's `stat` succeeds, `index_all` returns a report whose
indexed/skipped counts partition the walked files.  A failing `stat` in the
loop head, however, aborts the batch (see the counterexample). -/
theorem C2_per_file_recovery :
    (∀ embedB hashF st entries,
      (∀ e ∈ entries, ∃ m, e.statMtime = Except.ok m) →
      indexAllRecovers embedB hashF st entries) ∧
    (∀ embedB hashF st rep (e : FileEntry) rest m msg,
      e.statMtime = Except.ok m → e.extractRes = Except.error msg →
      indexGo embedB hashF st rep (e :: rest) =
        indexGo embedB hashF st
          { rep with files_skipped := rep.files_skipped + 1 } rest) := by
  constructor
  · intro embedB hashF st entries hall
    obtain ⟨st', rep', hgo, hsum⟩ := indexGo_ok embedB hashF entries st ⟨0, 0, 0⟩ hall
    exact ⟨st', rep', hgo, by simpa using hsum⟩
  · intro embedB hashF st rep e rest m msg hm hx
    have hsingle : index_single_file embedB hashF st e = (st, .error msg) := by
      unfold index_single_file; rw [hx]
    rcases hg : st.get_file_mtime e.rel with - | stored
    · simp only [indexGo, indexStep, hm, hg, hsingle]
    · by_cases heq : stored = m
      · simp only [indexGo, indexStep, hm, hg, if_pos heq]
      · simp only [indexGo, indexStep, hm, hg, if_neg heq, hsingle]

/-- Witness for C2's amended theorem at a concrete input: a two-entry walk
(one clean file, one failing extraction) completes with a two-file report. -/
theorem C2_witness :
    indexAllRecovers embed0 hash0 Store.empty [goodEntry, extractFailEntry] :=
  C2_per_file_recovery.1 embed0 hash0 Store.empty [goodEntry, extractFailEntry]
    (by
      intro e he
      rcases List.mem_cons.1 he with h | h
      · exact ⟨7, by rw [h]; rfl⟩
      · rcases List.mem_cons.1 h with h2 | h2
        · exact ⟨3, by rw [h2]; rfl⟩
        · exact absurd h2 (List.not_mem_nil e))

/-- C3 counterexample: `should_index` does not reject hidden path segments:
the hidden file `.hidden.md` (readable, small, regular, recognized type)
passes the gate even though its only segment begins with a dot.  (Hidden
*directories* are skipped by the walk in `collect_files_recursive`, not by
`should_index`.) -/
theorem C3_counterexample :
    ¬ skipsHiddenClaim [".hidden.md"] (some ⟨10, true⟩) := by
  unfold skipsHiddenClaim
  decide

/-- C3 amended: `should_index path meta` holds exactly when no segment of
`path` is one of the fixed `SKIP_DIRS` names, the metadata is readable, the
size is within the 10 MB cap, the entry is a regular file, and the detected
type is supported.  Hidden segments are not rejected by `should_index`. -/
theorem C3_should_index_iff (path : List String) (meta : Option Meta) :
    should_index path meta = true ↔
      ((∀ seg ∈ path, SKIP_DIRS.contains seg = false) ∧
       ∃ m, meta = some m ∧ m.len ≤ MAX_INDEX_SIZE ∧ m.isFile = true ∧
         detect_file_type path ≠ FileType.Unsupported) := by
  unfold should_index
  by_cases hskip : path.any (fun name => SKIP_DIRS.contains name) = true
  · rw [if_pos hskip]
    simp only [List.any_eq_true] at hskip
    obtain ⟨seg, hseg, hmem⟩ := hskip
    constructor
    · intro h; exact Bool.noConfusion h
    · rintro ⟨hall, -⟩
      have := hall seg hseg
      rw [hmem] at this
      exact Bool.noConfusion this
  · rw [if_neg hskip]
    have hall : ∀ seg ∈ path, SKIP_DIRS.contains seg = false := by
      intro seg hseg
      by_contra h
      exact hskip (List.any_eq_true.2 ⟨seg, hseg, by simpa using h⟩)
    rcases meta with - | m
    · constructor
      · intro h; exact Bool.noConfusion h
      · rintro ⟨-, m, hm, -⟩
        exact Option.noConfusion hm
    · dsimp only
      by_cases hbad : m.len > MAX_INDEX_SIZE ∨ m.isFile = false
      · rw [if_pos hbad]
        constructor
        · intro h; exact Bool.noConfusion h
        · rintro ⟨-, m', hm', hlen, hreg, -⟩
          injection hm' with hm'
          subst hm'
          rcases hbad with h | h
          · omega
          · rw [hreg] at h; exact Bool.noConfusion h
      · rw [if_neg hbad]
        push_neg at hbad
        constructor
        · intro h
          refine ⟨hall, m, rfl, hbad.1, ?_, by simpa using h⟩
          rcases Bool.eq_false_or_eq_true m.isFile with ht | hf
          · exact ht
          · exact absurd hf hbad.2
        · rintro ⟨-, m', hm', -, -, hdet⟩
          injection hm' with hm'
          subst hm'
          simpa using hdet

/-- Witness for C3's amended theorem at a concrete input: `src/main.rs` with
readable, small, regular-file metadata is eligible. -/
theorem C3_witness :
    should_index ["src", "main.rs"] (some ⟨100, true⟩) = true :=
  (C3_should_index_iff ["src", "main.rs"] (some ⟨100, true⟩)).2
    (by refine ⟨by decide, ⟨100, true⟩, rfl, by decide, rfl, by decide⟩)

/-- C6 counterexample: on a text with no words (the empty string) the
estimator returns 1, not the word count 0 — the word-count branch is
`split_whitespace().count().max(1)`. -/
theorem C6_counterexample : ¬ estWordClaim "" := by
  unfold estWordClaim
  decide

theorem cjkCountAux_le_charCountAux (p : Char → Bool) :
    ∀ (l : List Char) (a b : Nat), a ≤ b → cjkCountAux p a l ≤ charCountAux b l := by
  intro l
  induction l with
  | nil => intro a b h; exact h
  | cons c rest ih =>
    intro a b h
    simp only [cjkCountAux, charCountAux]
    by_cases hc : p c = true
    · rw [if_pos hc]; exact ih (a + 1) (b + 1) (by omega)
    · rw [if_neg hc]; exact ih a (b + 1) (by omega)

theorem cjkCount_le_charCount (s : String) : cjkCount s ≤ charCount s :=
  cjkCountAux_le_charCountAux is_cjk s.toList 0 0 (le_refl 0)

/-- C6 amended: the estimator uses the CJK-dominance test "more CJK
characters than a third of all characters" (the integer-divided comparison in
the code is equivalent to the exact one), returning `(2·chars + 2) / 3` in
the CJK branch and the word count floored at one otherwise; it never
returns 0. -/
theorem C6_estimator_amended (s : String) :
    estimate_tokens s =
      (if 3 * cjkCount s > charCount s then (charCount s * 2 + 2) / 3
       else max (countWords s) 1) ∧
    1 ≤ estimate_tokens s := by
  have hle := cjkCount_le_charCount s
  have hcond : (cjkCount s > charCount s / 3) ↔ (3 * cjkCount s > charCount s) := by
    omega
  constructor
  · unfold estimate_tokens
    by_cases h : 3 * cjkCount s > charCount s
    · rw [if_pos (hcond.2 h), if_pos h]
    · rw [if_neg (fun hc => h (hcond.1 hc)), if_neg h]
  · unfold estimate_tokens
    by_cases h : cjkCount s > charCount s / 3
    · rw [if_pos h]; omega
    · rw [if_neg h]; omega

/-- C7: when an entry's current mtime equals the mtime stored for its path,
the `index_all` loop skips the file: the store is passed on unchanged (so
file and chunk counts are unchanged and no chunk is produced — no
re-extraction, re-hash or re-embedding is even representable on this path)
and only `files_skipped` is incremented; on a one-entry walk the result is
the unchanged store with report `(0 indexed, 1 skipped, 0 chunks)`. -/
theorem C7_mtime_skip :
    (∀ embedB hashF (st : Store) rep (e : FileEntry) rest m,
      e.statMtime = Except.ok m → st.get_file_mtime e.rel = some m →
      indexGo embedB hashF st rep (e :: rest) =
        indexGo embedB hashF st
          { rep with files_skipped := rep.files_skipped + 1 } rest) ∧
    (∀ embedB hashF (st : Store) (e : FileEntry) m,
      e.statMtime = Except.ok m → st.get_file_mtime e.rel = some m →
      index_all embedB hashF st [e] = .ok (st, ⟨0, 1, 0⟩)) := by
  have key : ∀ embedB hashF (st : Store) rep (e : FileEntry) rest m,
      e.statMtime = Except.ok m → st.get_file_mtime e.rel = some m →
      indexGo embedB hashF st rep (e :: rest) =
        indexGo embedB hashF st
          { rep with files_skipped := rep.files_skipped + 1 } rest := by
    intro embedB hashF st rep e rest m hm hg
    simp only [indexGo, indexStep, hm, hg, eq_self_iff_true, if_true]
  refine ⟨key, ?_⟩
  intro embedB hashF st e m hm hg
  unfold index_all
  rw [key embedB hashF st ⟨0, 0, 0⟩ e [] m hm hg]
  rfl

/-- Witness for C7 at a concrete input: re-walking `ok.md` (stored mtime 7,
current mtime 7) leaves `storeC7` untouched and reports one skipped file. -/
theorem C7_witness :
    index_all embed0 hash0 storeC7 [goodEntry] = .ok (storeC7, ⟨0, 1, 0⟩) :=
  C7_mtime_skip.2 embed0 hash0 storeC7 goodEntry 7 rfl (by decide)

/-- C8 counterexample: a heading line consisting only of `#` (no heading
text) produces a chunk with heading `some ""`, not `None` — the code always
wraps the stripped heading line in `Some`. -/
theorem C8_counterexample : ¬ headingNoneClaim "#" := by
  unfold headingNoneClaim
  decide

/-! ### Line-weight sums -/

theorem wsumC_succ_right (ls : List String) :
    ∀ (n a : Nat), wsumC ls a (n + 1) = wsumC ls a n + lineTok ls (a + n) := by
  intro n
  induction n with
  | zero => intro a; simp [wsumC]
  | succ k ih =>
    intro a
    calc wsumC ls a (k + 2) = lineTok ls a + wsumC ls (a + 1) (k + 1) := rfl
    _ = lineTok ls a + (wsumC ls (a + 1) k + lineTok ls (a + 1 + k)) := by rw [ih]
    _ = lineTok ls a + (wsumC ls (a + 1) k + lineTok ls (a + (k + 1))) := by
        rw [show a + 1 + k = a + (k + 1) from by omega]
    _ = wsumC ls a (k + 1) + lineTok ls (a + (k + 1)) := by
        show _ = lineTok ls a + wsumC ls (a + 1) k + _
        omega

theorem wsum_nil (ls : List String) (a b : Nat) (h : b ≤ a) : wsum ls a b = 0 := by
  unfold wsum
  rw [Nat.sub_eq_zero_of_le h]
  rfl

theorem wsum_succ_right (ls : List String) (a b : Nat) (h : a ≤ b) :
    wsum ls a (b + 1) = wsum ls a b + lineTok ls b := by
  unfold wsum
  have h1 : b + 1 - a = (b - a) + 1 := by omega
  rw [h1, wsumC_succ_right]
  congr 2
  omega

theorem wsum_step (ls : List String) (a b : Nat) (h : a < b) :
    wsum ls a b = lineTok ls a + wsum ls (a + 1) b := by
  unfold wsum
  have h1 : b - a = (b - (a + 1)) + 1 := by omega
  rw [h1]
  rfl

theorem wsum_split (ls : List String) (a m b : Nat) (h1 : a ≤ m) (h2 : m ≤ b) :
    wsum ls a b = wsum ls a m + wsum ls m b := by
  induction m, h1 using Nat.le_induction with
  | base => rw [wsum_nil ls a a (le_refl a)]; omega
  | succ k hk ih =>
    have hkb : k < b := by omega
    rw [wsum_succ_right ls a k hk, wsum_step ls k b hkb] at *
    omega

/-! ### Forward scan -/

theorem scanForwardF_ge (ls : List String) :
    ∀ fuel e t, e ≤ scanForwardF ls fuel e t := by
  intro fuel
  induction fuel with
  | zero => intro e t; exact le_refl e
  | succ n ih =>
    intro e t
    simp only [scanForwardF]
    split
    · exact le_trans (by omega) (ih (e + 1) _)
    · exact le_refl e

theorem scanForward_ge (ls : List String) (e t : Nat) : e ≤ scanForward ls e t :=
  scanForwardF_ge ls _ e t

theorem scanForwardF_le_len (ls : List String) :
    ∀ fuel e t, e ≤ ls.length → scanForwardF ls fuel e t ≤ ls.length := by
  intro fuel
  induction fuel with
  | zero => intro e t he; exact he
  | succ n ih =>
    intro e t he
    simp only [scanForwardF]
    split
    · exact ih (e + 1) _ (by omega)
    · exact he

theorem scanForward_le_len (ls : List String) (e t : Nat) (he : e ≤ ls.length) :
    scanForward ls e t ≤ ls.length :=
  scanForwardF_le_len ls _ e t he

theorem scanForward_succ (ls : List String) (e t : Nat)
    (h1 : e < ls.length) (h2 : t < TARGET_TOKENS) :
    e + 1 ≤ scanForward ls e t := by
  unfold scanForward
  have hf : ls.length - e = (ls.length - (e + 1)) + 1 := by omega
  rw [hf]
  simp only [scanForwardF, if_pos (show e < ls.length ∧ t < TARGET_TOKENS from ⟨h1, h2⟩)]
  exact scanForwardF_ge ls _ (e + 1) _

/-- Loop invariant of the forward scan: any index strictly before the final
one was visited with the running token total still under the target. -/
theorem scanForwardF_inv (ls : List String) :
    ∀ fuel e t j, e ≤ j → j < scanForwardF ls fuel e t →
      j < ls.length ∧ t + wsum ls e j < TARGET_TOKENS := by
  intro fuel
  induction fuel with
  | zero =>
    intro e t j hej hlt
    simp only [scanForwardF] at hlt
    omega
  | succ n ih =>
    intro e t j hej hlt
    simp only [scanForwardF] at hlt
    split at hlt
    · next h =>
      rcases Nat.eq_or_lt_of_le hej with heq | hgt
      · rw [← heq]
        exact ⟨h.1, by rw [wsum_nil ls e e (le_refl e)]; omega⟩
      · have := ih (e + 1) (t + lineTok ls e) j hgt hlt
        rw [wsum_step ls e j hgt]
        omega
    · omega

theorem scanForward_inv (ls : List String) (e t j : Nat) (hej : e ≤ j)
    (hlt : j < scanForward ls e t) :
    j < ls.length ∧ t + wsum ls e j < TARGET_TOKENS :=
  scanForwardF_inv ls _ e t j hej hlt

/-- Exit condition of the forward scan (with sufficient fuel): it stops at
the end of the lines or with the token total at or above the target. -/
theorem scanForwardF_exit (ls : List String) :
    ∀ fuel e t, ls.length ≤ fuel + e → e ≤ ls.length →
      scanForwardF ls fuel e t = ls.length ∨
        TARGET_TOKENS ≤ t + wsum ls e (scanForwardF ls fuel e t) := by
  intro fuel
  induction fuel with
  | zero =>
    intro e t hf he
    left
    simp only [scanForwardF]
    omega
  | succ n ih =>
    intro e t hf he
    simp only [scanForwardF]
    split
    · next h =>
      rcases ih (e + 1) (t + lineTok ls e) (by omega) h.1 with hL | hR
      · exact Or.inl hL
      · right
        have hge := scanForwardF_ge ls n (e + 1) (t + lineTok ls e)
        rw [wsum_step ls e _ (by omega)]
        omega
    · next h =>
      rcases Nat.lt_or_ge e ls.length with hlt | hge
      · right
        have ht : ¬ t < TARGET_TOKENS := fun hc => h ⟨hlt, hc⟩
        rw [wsum_nil ls e e (le_refl e)]
        omega
      · left; omega

theorem scanForward_exit (ls : List String) (e t : Nat) (he : e ≤ ls.length) :
    scanForward ls e t = ls.length ∨
      TARGET_TOKENS ≤ t + wsum ls e (scanForward ls e t) :=
  scanForwardF_exit ls _ e t (by omega) he

/-- Restarting the forward scan anywhere strictly inside a scanned span
reaches at least as far as the original scan did. -/
theorem scanForward_restart (ls : List String) (s ns : Nat)
    (h1 : s ≤ ns) (h2 : ns < scanForward ls s 0) :
    scanForward ls s 0 ≤ scanForward ls ns 0 := by
  by_contra hcon
  push_neg at hcon
  have hslen : s ≤ ls.length := le_trans (by omega) (le_of_lt ((scanForward_inv ls s 0 ns h1 h2).1))
  have helen : scanForward ls s 0 ≤ ls.length := scanForward_le_len ls s 0 hslen
  have hnslen : ns ≤ ls.length := by
    have := (scanForward_inv ls s 0 ns h1 h2).1
    omega
  have hns_le : ns ≤ scanForward ls ns 0 := scanForward_ge ls ns 0
  rcases scanForward_exit ls ns 0 hnslen with hL | hR
  · omega
  · have hinv := scanForward_inv ls s 0 (scanForward ls ns 0) (by omega) hcon
    have hsplit := wsum_split ls s ns (scanForward ls ns 0) h1 hns_le
    simp only [Nat.zero_add] at hinv hR
    omega

/-! ### Backward scan -/

theorem scanBackF_le (ls : List String) (start : Nat) :
    ∀ fuel ns ov, scanBackF ls start fuel ns ov ≤ ns := by
  intro fuel
  induction fuel with
  | zero => intro ns ov; exact le_refl ns
  | succ n ih =>
    intro ns ov
    simp only [scanBackF]
    split
    · exact le_trans (ih (ns - 1) _) (by omega)
    · exact le_refl ns

theorem scanBackF_ge (ls : List String) (start : Nat) :
    ∀ fuel ns ov, start ≤ ns → start ≤ scanBackF ls start fuel ns ov := by
  intro fuel
  induction fuel with
  | zero => intro ns ov h; exact h
  | succ n ih =>
    intro ns ov h
    simp only [scanBackF]
    split
    · next hc => exact ih (ns - 1) _ (by omega)
    · exact h

theorem scanBack_le (ls : List String) (start ns ov : Nat) :
    scanBack ls start ns ov ≤ ns :=
  scanBackF_le ls start _ ns ov

theorem scanBack_ge (ls : List String) (start ns ov : Nat) (h : start ≤ ns) :
    start ≤ scanBack ls start ns ov :=
  scanBackF_ge ls start _ ns ov h

/-- The backward scan always takes at least one step. -/
theorem scanBack_lt (ls : List String) (start ns : Nat) (h : start < ns) :
    scanBack ls start ns 0 < ns := by
  unfold scanBack
  have h1 : ns - start = (ns - start - 1) + 1 := by omega
  rw [h1]
  simp only [scanBackF,
    if_pos (show start < ns ∧ 0 < OVERLAP_TOKENS from ⟨h, by decide⟩)]
  exact lt_of_le_of_lt (scanBackF_le ls start _ (ns - 1) _) (by omega)

/-- When the backward scan falls all the way back to `start`, the lines
strictly between `start` and the boundary weigh less than the overlap
budget. -/
theorem scanBackF_start_weight (ls : List String) (start : Nat) :
    ∀ fuel ns ov, start < ns → scanBackF ls start fuel ns ov = start →
      ov + wsum ls (start + 1) ns < OVERLAP_TOKENS := by
  intro fuel
  induction fuel with
  | zero =>
    intro ns ov h heq
    exact absurd heq (by simp only [scanBackF]; omega)
  | succ n ih =>
    intro ns ov h heq
    simp only [scanBackF] at heq
    split at heq
    · next hc =>
      rcases Nat.lt_or_ge start (ns - 1) with hlt | hge
      · have := ih (ns - 1) (ov + lineTok ls (ns - 1)) hlt heq
        have hns : ns = (ns - 1) + 1 := by omega
        rw [hns, wsum_succ_right ls (start + 1) (ns - 1) (by omega)]
        omega
      · have hns1 : ns - 1 = start := by omega
        have hns : ns = start + 1 := by omega
        rw [hns, wsum_nil ls (start + 1) (start + 1) (le_refl _)]
        omega
    · omega

theorem scanBack_start_weight (ls : List String) (start ns : Nat)
    (h : start < ns) (heq : scanBack ls start ns 0 = start) :
    wsum ls (start + 1) ns < OVERLAP_TOKENS := by
  have := scanBackF_start_weight ls start (ns - start) ns 0 h heq
  omega

/-! ### Slice re-coordination -/

theorem getD_drop (ls : List String) (s j : Nat) :
    (ls.drop s).getD j "" = ls.getD (s + j) "" := by
  rw [List.getD_eq_getElem?_getD, List.getD_eq_getElem?_getD, List.getElem?_drop]

theorem getD_take (ls : List String) (n j : Nat) (h : j < n) :
    (ls.take n).getD j "" = ls.getD j "" := by
  rw [List.getD_eq_getElem?_getD, List.getD_eq_getElem?_getD, List.getElem?_take,
    if_pos h]

theorem lineTok_slice (ls : List String) (s n j : Nat) (h : j < n) :
    lineTok ((ls.drop s).take n) j = lineTok ls (s + j) := by
  unfold lineTok
  rw [getD_take _ _ _ h, getD_drop]

theorem lineTok_drop (ls : List String) (s j : Nat) :
    lineTok (ls.drop s) j = lineTok ls (s + j) := by
  unfold lineTok
  rw [getD_drop]

theorem wsumC_slice (ls : List String) (s n : Nat) :
    ∀ k a, a + k ≤ n → wsumC ((ls.drop s).take n) a k = wsumC ls (s + a) k := by
  intro k
  induction k with
  | zero => intro a _; rfl
  | succ m ih =>
    intro a h
    simp only [wsumC]
    rw [lineTok_slice ls s n a (by omega), ih (a + 1) (by omega),
      show s + (a + 1) = s + a + 1 from by omega]

theorem wsum_slice (ls : List String) (s n a b : Nat) (hab : a ≤ b) (hb : b ≤ n) :
    wsum ((ls.drop s).take n) a b = wsum ls (s + a) (s + b) := by
  unfold wsum
  rw [show s + b - (s + a) = b - a from by omega]
  exact wsumC_slice ls s n (b - a) a (by omega)

theorem wsumC_drop (ls : List String) (s : Nat) :
    ∀ k a, wsumC (ls.drop s) a k = wsumC ls (s + a) k := by
  intro k
  induction k with
  | zero => intro a; rfl
  | succ m ih =>
    intro a
    simp only [wsumC]
    rw [lineTok_drop ls s a, ih (a + 1), show s + (a + 1) = s + a + 1 from by omega]

theorem wsum_drop (ls : List String) (s a b : Nat) :
    wsum (ls.drop s) a b = wsum ls (s + a) (s + b) := by
  unfold wsum
  rw [show s + b - (s + a) = b - a from by omega]
  exact wsumC_drop ls s (b - a) a

theorem slice_slice (ls : List String) (s n x y : Nat) (h : x + y ≤ n) :
    (((ls.drop s).take n).drop x).take y = (ls.drop (s + x)).take y := by
  rw [List.drop_take, List.drop_drop, List.take_take, min_eq_left (by omega)]

/-! ### The subdivision loop -/

theorem subLoopF_mem (ls : List String) (b : Nat) (hd : Option String) :
    ∀ fuel start c, c ∈ subLoopF ls b hd fuel start →
      ∃ s e, start ≤ s ∧ s < e ∧ e ≤ ls.length ∧ e = scanForward ls s 0 ∧
        c = ⟨joinNl ((ls.drop s).take (e - s)), b + s + 1, b + e, hd⟩ := by
  intro fuel
  induction fuel with
  | zero => intro start c hc; exact absurd hc (List.not_mem_nil c)
  | succ n ih =>
    intro start c hc
    simp only [subLoopF] at hc
    split at hc
    · next hstart =>
      split at hc
      · next hend =>
        rcases List.mem_singleton.1 hc with rfl
        exact ⟨start, scanForward ls start 0, le_refl start,
          scanForward_succ ls start 0 hstart (by decide),
          scanForward_le_len ls start 0 (le_of_lt hstart), rfl, rfl⟩
      · next hend =>
        rcases List.mem_cons.1 hc with rfl | htail
        · exact ⟨start, scanForward ls start 0, le_refl start,
            scanForward_succ ls start 0 hstart (by decide),
            scanForward_le_len ls start 0 (le_of_lt hstart), rfl, rfl⟩
        · obtain ⟨s, e, hs, hse, helen, heq, hceq⟩ := ih _ c htail
          refine ⟨s, e, ?_, hse, helen, heq, hceq⟩
          have hstep : start < scanForward ls start 0 :=
            scanForward_succ ls start 0 hstart (by decide)
          split at hs <;> omega
    · exact absurd hc (List.not_mem_nil c)

theorem subLoopF_head (ls : List String) (b : Nat) (hd : Option String) :
    ∀ fuel start c rest, subLoopF ls b hd fuel start = c :: rest →
      c.start_line = b + start + 1 ∧ c.end_line = b + scanForward ls start 0 := by
  intro fuel start c rest h
  cases fuel with
  | zero => exact absurd h (by simp [subLoopF])
  | succ n =>
    simp only [subLoopF] at h
    split at h
    · split at h
      · rw [List.cons.injEq] at h
        rw [← h.1]
        exact ⟨rfl, rfl⟩
      · rw [List.cons.injEq] at h
        rw [← h.1]
        exact ⟨rfl, rfl⟩
    · exact absurd h (by simp)

theorem subLoopF_chain (ls : List String) (b : Nat) (hd : Option String) :
    ∀ fuel start,
      List.Chain'
        (fun c1 c2 => c1.start_line < c2.start_line ∧ c1.end_line ≤ c2.end_line ∧
          (c2.start_line ≤ c1.end_line ∨
            (c2.start_line = c1.end_line + 1 ∧
              wsum ls (c1.start_line - b) (c1.end_line - b) < OVERLAP_TOKENS)))
        (subLoopF ls b hd fuel start) := by
  intro fuel
  induction fuel with
  | zero => intro start; exact List.chain'_nil
  | succ n ih =>
    intro start
    simp only [subLoopF]
    split
    · next hstart =>
      split
      · exact List.chain'_singleton _
      · next hend =>
        push_neg at hend
        apply List.chain'_cons'.2
        refine ⟨?_, ih _⟩
        intro y hy
        rcases hrec : subLoopF ls b hd n
            (if start < scanBack ls start (scanForward ls start 0) 0
             then scanBack ls start (scanForward ls start 0) 0
             else scanForward ls start 0) with - | ⟨c1, rest⟩
        · rw [hrec] at hy; exact absurd hy (by simp)
        · rw [hrec] at hy
          simp only [List.head?_cons, Option.mem_def, Option.some.injEq] at hy
          subst hy
          obtain ⟨hstartc, hendc⟩ := subLoopF_head ls b hd n _ c1 rest hrec
          have hemax : start < scanForward ls start 0 :=
            scanForward_succ ls start 0 hstart (by decide)
          by_cases hsb : start < scanBack ls start (scanForward ls start 0) 0
          · rw [if_pos hsb] at hstartc hendc
            have hsblt : scanBack ls start (scanForward ls start 0) 0 <
                scanForward ls start 0 := scanBack_lt ls start _ hemax
            have hmono : scanForward ls start 0 ≤
                scanForward ls (scanBack ls start (scanForward ls start 0) 0) 0 :=
              scanForward_restart ls start _ (le_of_lt hsb) hsblt
            refine ⟨by dsimp only; omega, by dsimp only; omega, Or.inl ?_⟩
            dsimp only
            omega
          · rw [if_neg hsb] at hstartc hendc
            have hsbge : start ≤ scanBack ls start (scanForward ls start 0) 0 :=
              scanBack_ge ls start _ 0 (le_of_lt hemax)
            have hsbeq : scanBack ls start (scanForward ls start 0) 0 = start := by
              omega
            have hw := scanBack_start_weight ls start (scanForward ls start 0)
              hemax hsbeq
            have hmono : scanForward ls start 0 ≤
                scanForward ls (scanForward ls start 0) 0 :=
              scanForward_ge ls _ 0
            refine ⟨by dsimp only; omega, by dsimp only; omega, Or.inr ⟨?_, ?_⟩⟩
            · dsimp only; omega
            · dsimp only
              rw [show b + start + 1 - b = start + 1 from by omega,
                show b + scanForward ls start 0 - b = scanForward ls start 0 from by omega]
              exact hw
    · exact List.chain'_nil

/-- Every chunk of `subdivide_lines ls b hd`: heading inherited, 1-indexed
range within `[b+1, b+|ls|]`, content the join of exactly the sliced lines,
and the cap discipline of `CapOK` (stated in the slice's own coordinates). -/
theorem subdivide_mem (ls : List String) (b : Nat) (hd : Option String)
    (c : Chunk) (hc : c ∈ subdivide_lines ls b hd) :
    c.heading = hd ∧ b + 1 ≤ c.start_line ∧ c.start_line ≤ c.end_line ∧
    c.end_line ≤ b + ls.length ∧
    c.content = joinNl ((ls.drop (c.start_line - 1 - b)).take (c.end_line + 1 - c.start_line)) ∧
    (estimate_tokens c.content ≤ MAX_TOKENS ∨
      wsum ls (c.start_line - 1 - b) (c.end_line - 1 - b) < TARGET_TOKENS) := by
  unfold subdivide_lines at hc
  split at hc
  · exact absurd hc (List.not_mem_nil c)
  · next hne =>
    have hlen : 0 < ls.length := by
      cases ls with
      | nil => simp at hne
      | cons a l => simp
    split at hc
    · next hest =>
      rcases List.mem_singleton.1 hc with rfl
      refine ⟨rfl, by dsimp only; omega, by dsimp only; omega, by dsimp only; omega,
        ?_, Or.inl hest⟩
      dsimp only
      rw [show b + 1 - 1 - b = 0 from by omega, List.drop_zero,
        show b + ls.length + 1 - (b + 1) = ls.length from by omega,
        List.take_length]
    · next hest =>
      obtain ⟨s, e, hs0, hse, helen, heq, hceq⟩ :=
        subLoopF_mem ls b hd ls.length 0 c hc
      subst hceq
      dsimp only
      refine ⟨rfl, by omega, by omega, by omega, ?_, Or.inr ?_⟩
      · rw [show b + s + 1 - 1 - b = s from by omega,
          show b + e + 1 - (b + s + 1) = e - s from by omega]
      · rw [show b + s + 1 - 1 - b = s from by omega,
          show b + e - 1 - b = e - 1 from by omega]
        have := scanForward_inv ls s 0 (e - 1) (by omega) (by omega)
        omega

/-- The chunks of `subdivide_lines` are ordered, with consecutive chunks
either overlapping or (exactly when the tail of the earlier chunk is lighter
than the overlap budget) starting right after the earlier one. -/
theorem subdivide_chain (ls : List String) (b : Nat) (hd : Option String) :
    List.Chain'
      (fun c1 c2 => c1.start_line < c2.start_line ∧ c1.end_line ≤ c2.end_line ∧
        (c2.start_line ≤ c1.end_line ∨
          (c2.start_line = c1.end_line + 1 ∧
            wsum ls (c1.start_line - b) (c1.end_line - b) < OVERLAP_TOKENS)))
      (subdivide_lines ls b hd) := by
  unfold subdivide_lines
  split
  · exact List.chain'_nil
  · split
    · exact List.chain'_singleton _
    · exact subLoopF_chain ls b hd ls.length 0

/-! ### Markdown sections -/

theorem mdSectionsF_spec (ls : List String) :
    ∀ fuel i cur ss, 1 ≤ i → i ≤ ls.length → ss < i →
      (∀ j, ss < j → j < i → startsWithHash (ls.getD j "") = false) →
      (startsWithHash (ls.getD ss "") = true →
        cur = some (rustTrim (stripHashes (ls.getD ss "")))) →
      (startsWithHash (ls.getD ss "") = false → ss = 0 ∧ cur = none) →
      (∀ sec ∈ mdSectionsF ls fuel i cur ss, SecOK ls sec) ∧
      List.Chain' (fun a b => b.2.1 = a.2.2 + 1) (mdSectionsF ls fuel i cur ss) ∧
      (∀ sec ∈ (mdSectionsF ls fuel i cur ss).head?, sec.2.1 = ss) := by
  intro fuel
  induction fuel with
  | zero =>
    intro i cur ss h1 h2 h3 h4 h5 h6
    refine ⟨?_, List.chain'_singleton _, ?_⟩
    · intro sec hsec
      rcases List.mem_singleton.1 hsec with rfl
      exact ⟨by dsimp only; omega, by dsimp only; omega,
        by dsimp only; exact h5, by dsimp only; exact h6,
        by dsimp only; exact fun j hj1 hj2 => h4 j hj1 (by omega)⟩
    · intro sec hsec
      simp only [mdSectionsF, List.head?_cons, Option.mem_def, Option.some.injEq] at hsec
      rw [← hsec]
  | succ n ih =>
    intro i cur ss h1 h2 h3 h4 h5 h6
    simp only [mdSectionsF]
    split
    · next hi =>
      split
      · next hhead =>
        rw [if_pos (show 0 < i from h1)]
        have hrec := ih (i + 1) (some (rustTrim (stripHashes (ls.getD i "")))) i
          (by omega) (by omega) (by omega)
          (fun j hj1 hj2 => by omega)
          (fun _ => rfl)
          (fun hcon => absurd hhead (by rw [hcon]; exact Bool.noConfusion))
        refine ⟨?_, ?_, ?_⟩
        · intro sec hsec
          rcases List.mem_cons.1 hsec with rfl | htail
          · exact ⟨by dsimp only; omega, by dsimp only; omega,
        by dsimp only; exact h5, by dsimp only; exact h6,
        by dsimp only; exact fun j hj1 hj2 => h4 j hj1 (by omega)⟩
          · exact hrec.1 sec htail
        · apply List.chain'_cons'.2
          refine ⟨?_, hrec.2.1⟩
          intro y hy
          have := hrec.2.2 y hy
          dsimp only
          omega
        · intro sec hsec
          simp only [List.head?_cons, Option.mem_def, Option.some.injEq] at hsec
          rw [← hsec]
      · next hhead =>
        have hheadf : startsWithHash (ls.getD i "") = false := by
          rcases Bool.eq_false_or_eq_true (startsWithHash (ls.getD i "")) with h | h
          · exact absurd h hhead
          · exact h
        exact ih (i + 1) cur ss (by omega) (by omega) (by omega)
          (fun j hj1 hj2 => by
            rcases Nat.lt_or_ge j i with hj | hj
            · exact h4 j hj1 hj
            · rw [show j = i from by omega]; exact hheadf)
          h5 h6
    · next hi =>
      refine ⟨?_, List.chain'_singleton _, ?_⟩
      · intro sec hsec
        rcases List.mem_singleton.1 hsec with rfl
        exact ⟨by dsimp only; omega, by dsimp only; omega,
        by dsimp only; exact h5, by dsimp only; exact h6,
        by dsimp only; exact fun j hj1 hj2 => h4 j hj1 (by omega)⟩
      · intro sec hsec
        simp only [List.head?_cons, Option.mem_def, Option.some.injEq] at hsec
        rw [← hsec]

/-- The sections of a non-empty file are well formed, adjacent, and the
first one starts at line index 0. -/
theorem mdSections_spec (ls : List String) (hne : 0 < ls.length) :
    (∀ sec ∈ mdSections ls, SecOK ls sec) ∧
    List.Chain' (fun a b => b.2.1 = a.2.2 + 1) (mdSections ls) ∧
    (∀ sec ∈ (mdSections ls).head?, sec.2.1 = 0) := by
  unfold mdSections
  rcases hlen : ls.length with - | k
  · omega
  · simp only [mdSectionsF, hlen]
    rw [if_pos (show 0 < k + 1 from by omega)]
    split
    · next hhead =>
      rw [if_neg (show ¬ 0 < 0 from by omega)]
      have := mdSectionsF_spec ls k 1 (some (rustTrim (stripHashes (ls.getD 0 "")))) 0
        (le_refl 1) (by omega) (by omega)
        (fun j hj1 hj2 => by omega)
        (fun _ => rfl)
        (fun hcon => absurd hhead (by rw [hcon]; exact Bool.noConfusion))
      exact this
    · next hhead =>
      have hheadf : startsWithHash (ls.getD 0 "") = false := by
        rcases Bool.eq_false_or_eq_true (startsWithHash (ls.getD 0 "")) with h | h
        · exact absurd h hhead
        · exact h
      have := mdSectionsF_spec ls k 1 none 0
        (le_refl 1) (by omega) (by omega)
        (fun j hj1 hj2 => by omega)
        (fun hcon => absurd hcon (by rw [hheadf]; exact Bool.noConfusion))
        (fun _ => ⟨rfl, rfl⟩)
      exact this

theorem lastHead_const (ls : List String) :
    ∀ k s, s ≤ k → (∀ j, s < j → j ≤ k → startsWithHash (ls.getD j "") = false) →
      lastHead ls k = lastHead ls s := by
  intro k
  induction k with
  | zero => intro s hs _; rw [Nat.le_zero.1 hs]
  | succ m ih =>
    intro s hs hj
    rcases Nat.eq_or_lt_of_le hs with heq | hlt
    · rw [heq]
    · have hm : startsWithHash (ls.getD (m + 1) "") = false :=
        hj (m + 1) hlt (le_refl _)
      simp only [lastHead, hm, Bool.false_eq_true, if_false]
      exact ih s (by omega) (fun j h1 h2 => hj j h1 (by omega))

theorem lastHead_heading (ls : List String) (s : Nat)
    (h : startsWithHash (ls.getD s "") = true) : lastHead ls s = some s := by
  cases s with
  | zero => simp only [lastHead, h, if_true]
  | succ m => simp only [lastHead, h, if_true]

/-- Inside a well-formed section the heading reference `headingFor` is the
section's own heading. -/
theorem sec_headingFor (ls : List String) (sec : Option String × Nat × Nat)
    (hsec : SecOK ls sec) (k : Nat) (hk1 : sec.2.1 ≤ k) (hk2 : k ≤ sec.2.2) :
    headingFor ls k = sec.1 := by
  obtain ⟨hse, helen, hD1, hD2, hD3⟩ := hsec
  have hconst : lastHead ls k = lastHead ls sec.2.1 :=
    lastHead_const ls k sec.2.1 hk1 (fun j h1 h2 => hD3 j h1 (by omega))
  unfold headingFor
  rw [hconst]
  rcases Bool.eq_false_or_eq_true (startsWithHash (ls.getD sec.2.1 "")) with hh | hh
  · rw [lastHead_heading ls sec.2.1 hh, hD1 hh]
    rfl
  · obtain ⟨hs0, hnone⟩ := hD2 hh
    rw [hs0] at hh ⊢
    simp only [lastHead, hh, Bool.false_eq_true, if_false, hnone]
    rfl

/-- Chunks emitted for one well-formed markdown section: bounded by the
section's span, content matching their range, cap discipline, and the
section's heading. -/
theorem mdSectionChunks_mem (ls : List String) (sec : Option String × Nat × Nat)
    (hsec : SecOK ls sec) (c : Chunk) (hc : c ∈ mdSectionChunks ls sec) :
    sec.2.1 + 1 ≤ c.start_line ∧ c.start_line ≤ c.end_line ∧
    c.end_line ≤ sec.2.2 + 1 ∧ ContentOK ls c ∧ CapOK ls c ∧ c.heading = sec.1 := by
  obtain ⟨hse, helen, -, -, -⟩ := hsec
  have hslice : ((ls.drop sec.2.1).take (sec.2.2 + 1 - sec.2.1)).length
      = sec.2.2 + 1 - sec.2.1 := by
    rw [List.length_take, List.length_drop]
    omega
  unfold mdSectionChunks at hc
  split at hc
  · next hest =>
    rcases List.mem_singleton.1 hc with rfl
    refine ⟨by dsimp only; omega, by dsimp only; omega, by dsimp only; omega, ?_, ?_, rfl⟩
    · unfold ContentOK
      dsimp only
      rw [show sec.2.1 + 1 - 1 = sec.2.1 from by omega,
        show sec.2.2 + 1 + 1 - (sec.2.1 + 1) = sec.2.2 + 1 - sec.2.1 from by omega]
    · exact Or.inl hest
  · next hest =>
    obtain ⟨hhd, hs1, hs2, hs3, hcont, hcap⟩ :=
      subdivide_mem ((ls.drop sec.2.1).take (sec.2.2 + 1 - sec.2.1)) sec.2.1 sec.1 c hc
    rw [hslice] at hs3
    refine ⟨hs1, hs2, by omega, ?_, ?_, hhd⟩
    · unfold ContentOK
      rw [hcont, slice_slice ls sec.2.1 (sec.2.2 + 1 - sec.2.1)
        (c.start_line - 1 - sec.2.1) (c.end_line + 1 - c.start_line) (by omega)]
      rw [show sec.2.1 + (c.start_line - 1 - sec.2.1) = c.start_line - 1 from by omega]
    · unfold CapOK
      rcases hcap with hcap | hcap
      · exact Or.inl hcap
      · right
        rw [wsum_slice ls sec.2.1 (sec.2.2 + 1 - sec.2.1)
          (c.start_line - 1 - sec.2.1) (c.end_line - 1 - sec.2.1) (by omega) (by omega)]
          at hcap
        rw [show sec.2.1 + (c.start_line - 1 - sec.2.1) = c.start_line - 1 from by omega,
          show sec.2.1 + (c.end_line - 1 - sec.2.1) = c.end_line - 1 from by omega] at hcap
        exact hcap

/-- Chunks emitted for one well-formed markdown section are ordered. -/
theorem mdSectionChunks_chain (ls : List String) (sec : Option String × Nat × Nat) :
    List.Chain' chunkMono (mdSectionChunks ls sec) := by
  unfold mdSectionChunks
  split
  · exact List.chain'_singleton _
  · exact
      (subdivide_chain ((ls.drop sec.2.1).take (sec.2.2 + 1 - sec.2.1)) sec.2.1
        sec.1).imp (fun c1 c2 h => ⟨by omega, h.2.1⟩)

/-- Concatenating the chunks of adjacent well-formed sections preserves all
per-chunk facts and the global ordering. -/
theorem mdFlatMap_spec (ls : List String) :
    ∀ secs, (∀ sec ∈ secs, SecOK ls sec) →
      List.Chain' (fun a b => b.2.1 = a.2.2 + 1) secs →
      (∀ c ∈ secs.flatMap (mdSectionChunks ls),
        1 ≤ c.start_line ∧ c.start_line ≤ c.end_line ∧ c.end_line ≤ ls.length ∧
        ContentOK ls c ∧ CapOK ls c ∧ c.heading = headingFor ls (c.start_line - 1) ∧
        (∀ sec0 ∈ secs.head?, sec0.2.1 + 1 ≤ c.start_line)) ∧
      List.Chain' chunkMono (secs.flatMap (mdSectionChunks ls)) := by
  intro secs
  induction secs with
  | nil => exact fun _ _ => ⟨fun c hc => absurd hc (List.not_mem_nil c), List.chain'_nil⟩
  | cons a rest ih =>
    intro hall hchain
    have hA : SecOK ls a := hall a (List.mem_cons_self a rest)
    have hA1 : a.2.1 ≤ a.2.2 := hA.1
    have hA2 : a.2.2 < ls.length := hA.2.1
    obtain ⟨ihmem, ihchain⟩ := ih (fun s hs => hall s (List.mem_cons_of_mem a hs))
      (List.Chain'.tail hchain)
    have hadj : ∀ sec0 ∈ rest.head?, sec0.2.1 = a.2.2 + 1 := by
      intro sec0 hs0
      cases rest with
      | nil => exact absurd hs0 (by simp)
      | cons b rest' =>
        simp only [List.head?_cons, Option.mem_def, Option.some.injEq] at hs0
        rw [← hs0]
        exact (List.chain'_cons.1 hchain).1
    constructor
    · intro c hc
      rw [List.flatMap_cons, List.mem_append] at hc
      rcases hc with hc | hc
      · obtain ⟨h1, h2, h3, h4, h5, h6⟩ := mdSectionChunks_mem ls a hA c hc
        refine ⟨by omega, h2, by omega, h4, h5, ?_, ?_⟩
        · rw [h6]
          exact (sec_headingFor ls a hA (c.start_line - 1) (by omega) (by omega)).symm
        · intro sec0 hs0
          simp only [List.head?_cons, Option.mem_def, Option.some.injEq] at hs0
          rw [← hs0]
          exact h1
      · obtain ⟨h1, h2, h3, h4, h5, h6, h7⟩ := ihmem c hc
        refine ⟨h1, h2, h3, h4, h5, h6, ?_⟩
        intro sec0 hs0
        simp only [List.head?_cons, Option.mem_def, Option.some.injEq] at hs0
        rw [← hs0]
        cases rest with
        | nil => exact absurd hc (by simp)
        | cons b rest' =>
          have hb : b.2.1 = a.2.2 + 1 := hadj b (by simp)
          have := h7 b (by simp)
          have haa : a.2.1 ≤ a.2.2 := hA.1
          omega
    · rw [List.flatMap_cons]
      apply List.Chain'.append (mdSectionChunks_chain ls a) ihchain
      intro x hx y hy
      have hxm : x ∈ mdSectionChunks ls a := List.mem_of_mem_getLast? hx
      have hym : y ∈ rest.flatMap (mdSectionChunks ls) := by
        cases hrest : rest.flatMap (mdSectionChunks ls) with
        | nil => rw [hrest] at hy; exact absurd hy (by simp)
        | cons z zs =>
          rw [hrest] at hy
          simp only [List.head?_cons, Option.mem_def, Option.some.injEq] at hy
          rw [← hy]
          exact List.mem_cons_self z zs
      obtain ⟨hx1, hx2, hx3, -, -, -⟩ := mdSectionChunks_mem ls a hA x hxm
      obtain ⟨-, hy2, -, -, -, -, hy7⟩ := ihmem y hym
      cases rest with
      | nil => exact absurd hym (by simp)
      | cons b rest' =>
        have hb : b.2.1 = a.2.2 + 1 := hadj b (by simp)
        have := hy7 b (by simp)
        exact ⟨by omega, by omega⟩

/-- Subdividing the slice `[bs, bs+n)` of a file produces chunks bounded by
the slice, matching content, cap discipline and no heading (whole-file
coordinates). -/
theorem subdivide_slice_spec (ls : List String) (bs n : Nat) (hn : bs + n ≤ ls.length) :
    (∀ c ∈ subdivide_lines ((ls.drop bs).take n) bs none,
      bs + 1 ≤ c.start_line ∧ c.start_line ≤ c.end_line ∧ c.end_line ≤ bs + n ∧
      ContentOK ls c ∧ CapOK ls c ∧ c.heading = none) ∧
    List.Chain' chunkMono (subdivide_lines ((ls.drop bs).take n) bs none) := by
  have hslen : ((ls.drop bs).take n).length = n := by
    rw [List.length_take, List.length_drop]
    omega
  constructor
  · intro c hc
    obtain ⟨hhd, hs1, hs2, hs3, hcont, hcap⟩ :=
      subdivide_mem ((ls.drop bs).take n) bs none c hc
    rw [hslen] at hs3
    refine ⟨hs1, hs2, hs3, ?_, ?_, hhd⟩
    · unfold ContentOK
      rw [hcont, slice_slice ls bs n (c.start_line - 1 - bs)
        (c.end_line + 1 - c.start_line) (by omega)]
      rw [show bs + (c.start_line - 1 - bs) = c.start_line - 1 from by omega]
    · unfold CapOK
      rcases hcap with hcap | hcap
      · exact Or.inl hcap
      · right
        rw [wsum_slice ls bs n (c.start_line - 1 - bs) (c.end_line - 1 - bs)
          (by omega) (by omega)] at hcap
        rw [show bs + (c.start_line - 1 - bs) = c.start_line - 1 from by omega,
          show bs + (c.end_line - 1 - bs) = c.end_line - 1 from by omega] at hcap
        exact hcap
  · exact (subdivide_chain ((ls.drop bs).take n) bs none).imp
      (fun c1 c2 h => ⟨by omega, h.2.1⟩)

/-- The same for the suffix `ls.drop bs` (the final block of a file). -/
theorem subdivide_drop_spec (ls : List String) (bs : Nat) (hbs : bs ≤ ls.length) :
    (∀ c ∈ subdivide_lines (ls.drop bs) bs none,
      bs + 1 ≤ c.start_line ∧ c.start_line ≤ c.end_line ∧ c.end_line ≤ ls.length ∧
      ContentOK ls c ∧ CapOK ls c ∧ c.heading = none) ∧
    List.Chain' chunkMono (subdivide_lines (ls.drop bs) bs none) := by
  have hdt : ls.drop bs = (ls.drop bs).take (ls.length - bs) := by
    rw [← List.length_drop bs ls, List.take_length]
  rw [hdt]
  have := subdivide_slice_spec ls bs (ls.length - bs) (by omega)
  refine ⟨fun c hc => ?_, this.2⟩
  obtain ⟨h1, h2, h3, h4, h5, h6⟩ := this.1 c hc
  exact ⟨h1, h2, by omega, h4, h5, h6⟩

/-- Per-chunk facts and ordering for the block loop of `chunk_code`. -/
theorem chunkCodeF_spec (ls : List String) :
    ∀ fuel i bs blank, bs ≤ i → i ≤ ls.length →
      (∀ c ∈ chunkCodeF ls fuel i bs blank,
        bs + 1 ≤ c.start_line ∧ c.start_line ≤ c.end_line ∧ c.end_line ≤ ls.length ∧
        ContentOK ls c ∧ CapOK ls c ∧ c.heading = none) ∧
      List.Chain' chunkMono (chunkCodeF ls fuel i bs blank) := by
  intro fuel
  induction fuel with
  | zero =>
    intro i bs blank hbi hil
    simp only [chunkCodeF]
    split
    · next hbs => exact subdivide_drop_spec ls bs (by omega)
    · exact ⟨fun c hc => absurd hc (List.not_mem_nil c), List.chain'_nil⟩
  | succ n ih =>
    intro i bs blank hbi hil
    simp only [chunkCodeF]
    split
    · next hi =>
      split
      · next hblank =>
        exact ih (i + 1) bs (blank + 1) (by omega) (by omega)
      · split
        · next hemit =>
          have hbsi : bs < i := hemit.2
          obtain ⟨hm2, hch2⟩ := ih (i + 1) i 0 (by omega) (by omega)
          have hsl := subdivide_slice_spec ls bs (i - bs) (by omega)
          have hleftmem : ∀ c ∈
              (if 0 < estimate_tokens (joinNl ((ls.drop bs).take (i - bs)))
               then subdivide_lines ((ls.drop bs).take (i - bs)) bs none else []),
              bs + 1 ≤ c.start_line ∧ c.start_line ≤ c.end_line ∧ c.end_line ≤ i ∧
              ContentOK ls c ∧ CapOK ls c ∧ c.heading = none := by
            intro c hc
            split at hc
            · obtain ⟨h1, h2, h3, h4, h5, h6⟩ := hsl.1 c hc
              exact ⟨h1, h2, by omega, h4, h5, h6⟩
            · exact absurd hc (List.not_mem_nil c)
          constructor
          · intro c hc
            rcases List.mem_append.1 hc with hc | hc
            · obtain ⟨h1, h2, h3, h4, h5, h6⟩ := hleftmem c hc
              exact ⟨h1, h2, by omega, h4, h5, h6⟩
            · obtain ⟨h1, h2, h3, h4, h5, h6⟩ := hm2 c hc
              exact ⟨by omega, h2, h3, h4, h5, h6⟩
          · apply List.Chain'.append ?_ hch2
            · intro x hx y hy
              have hxm := List.mem_of_mem_getLast? hx
              have hym := List.mem_of_mem_head? hy
              obtain ⟨hx1, hx2, hx3, -, -, -⟩ := hleftmem x hxm
              obtain ⟨hy1, hy2, -, -, -, -⟩ := hm2 y hym
              exact ⟨by omega, by omega⟩
            · split
              · exact hsl.2
              · exact List.chain'_nil
        · next hemit =>
          exact ih (i + 1) bs 0 (by omega) (by omega)
    · split
      · next hbs => exact subdivide_drop_spec ls bs (by omega)
      · exact ⟨fun c hc => absurd hc (List.not_mem_nil c), List.chain'_nil⟩

/-- Per-chunk facts and ordering for the paragraph loop of `chunk_plain`. -/
theorem chunkPlainF_spec (ls : List String) :
    ∀ fuel i ps prevBlank, ps ≤ i + 1 →
      (∀ c ∈ chunkPlainF ls fuel i ps prevBlank,
        ps + 1 ≤ c.start_line ∧ c.start_line ≤ c.end_line ∧ c.end_line ≤ ls.length ∧
        ContentOK ls c ∧ CapOK ls c ∧ c.heading = none) ∧
      List.Chain' chunkMono (chunkPlainF ls fuel i ps prevBlank) := by
  intro fuel
  induction fuel with
  | zero =>
    intro i ps prevBlank hpi
    simp only [chunkPlainF]
    split
    · next hps => exact subdivide_drop_spec ls ps (by omega)
    · exact ⟨fun c hc => absurd hc (List.not_mem_nil c), List.chain'_nil⟩
  | succ n ih =>
    intro i ps prevBlank hpi
    simp only [chunkPlainF]
    split
    · next hi =>
      split
      · next hemit =>
        obtain ⟨hm2, hch2⟩ := ih (i + 1) (i + 1) _ (by omega)
        have hsl := subdivide_slice_spec ls ps (i - ps) (by omega)
        have hpslt : ps < i := hemit.2.2
        constructor
        · intro c hc
          rcases List.mem_append.1 hc with hc | hc
          · obtain ⟨h1, h2, h3, h4, h5, h6⟩ := hsl.1 c hc
            exact ⟨h1, h2, by omega, h4, h5, h6⟩
          · obtain ⟨h1, h2, h3, h4, h5, h6⟩ := hm2 c hc
            exact ⟨by omega, h2, h3, h4, h5, h6⟩
        · apply List.Chain'.append hsl.2 hch2
          intro x hx y hy
          have hxm := List.mem_of_mem_getLast? hx
          have hym := List.mem_of_mem_head? hy
          obtain ⟨hx1, hx2, hx3, -, -, -⟩ := hsl.1 x hxm
          obtain ⟨hy1, hy2, -, -, -, -⟩ := hm2 y hym
          exact ⟨by omega, by omega⟩
      · exact ih (i + 1) ps _ (by omega)
    · next hi =>
      split
      · next hps => exact subdivide_drop_spec ls ps (by omega)
      · exact ⟨fun c hc => absurd hc (List.not_mem_nil c), List.chain'_nil⟩

/-- The full per-chunk and ordering facts for `chunk_markdown_lines`. -/
theorem chunk_markdown_lines_spec (ls : List String) :
    (∀ c ∈ chunk_markdown_lines ls,
      1 ≤ c.start_line ∧ c.start_line ≤ c.end_line ∧ c.end_line ≤ ls.length ∧
      ContentOK ls c ∧ CapOK ls c ∧ c.heading = headingFor ls (c.start_line - 1)) ∧
    List.Chain' chunkMono (chunk_markdown_lines ls) := by
  unfold chunk_markdown_lines
  split
  · exact ⟨fun c hc => absurd hc (List.not_mem_nil c), List.chain'_nil⟩
  · next hne =>
    have hlen : 0 < ls.length := by
      cases ls with
      | nil => simp at hne
      | cons a l => simp
    obtain ⟨hsec, hchain, -⟩ := mdSections_spec ls hlen
    obtain ⟨hmem, hch⟩ := mdFlatMap_spec ls (mdSections ls) hsec hchain
    exact ⟨fun c hc => by
      obtain ⟨h1, h2, h3, h4, h5, h6, -⟩ := hmem c hc
      exact ⟨h1, h2, h3, h4, h5, h6⟩, hch⟩

theorem chunk_code_lines_spec (ls : List String) :
    (∀ c ∈ chunk_code_lines ls,
      1 ≤ c.start_line ∧ c.start_line ≤ c.end_line ∧ c.end_line ≤ ls.length ∧
      ContentOK ls c ∧ CapOK ls c) ∧
    List.Chain' chunkMono (chunk_code_lines ls) := by
  unfold chunk_code_lines
  split
  · exact ⟨fun c hc => absurd hc (List.not_mem_nil c), List.chain'_nil⟩
  · obtain ⟨hm, hch⟩ := chunkCodeF_spec ls ls.length 0 0 0 (le_refl 0) (Nat.zero_le _)
    exact ⟨fun c hc => by
      obtain ⟨h1, h2, h3, h4, h5, -⟩ := hm c hc
      exact ⟨h1, h2, h3, h4, h5⟩, hch⟩

theorem chunk_plain_lines_spec (ls : List String) :
    (∀ c ∈ chunk_plain_lines ls,
      1 ≤ c.start_line ∧ c.start_line ≤ c.end_line ∧ c.end_line ≤ ls.length ∧
      ContentOK ls c ∧ CapOK ls c) ∧
    List.Chain' chunkMono (chunk_plain_lines ls) := by
  unfold chunk_plain_lines
  split
  · exact ⟨fun c hc => absurd hc (List.not_mem_nil c), List.chain'_nil⟩
  · obtain ⟨hm, hch⟩ := chunkPlainF_spec ls ls.length 0 0 false (by omega)
    exact ⟨fun c hc => by
      obtain ⟨h1, h2, h3, h4, h5, -⟩ := hm c hc
      exact ⟨h1, h2, h3, h4, h5⟩, hch⟩

/-- Combined per-chunk facts for every file type. -/
theorem chunk_text_spec (content : String) (ft : FileType) :
    (∀ c ∈ chunk_text content ft,
      1 ≤ c.start_line ∧ c.start_line ≤ c.end_line ∧
      c.end_line ≤ (rustLines content).length ∧
      ContentOK (rustLines content) c ∧ CapOK (rustLines content) c) ∧
    List.Chain' chunkMono (chunk_text content ft) := by
  cases ft with
  | Markdown =>
    obtain ⟨hm, hch⟩ := chunk_markdown_lines_spec (rustLines content)
    exact ⟨fun c hc => by
      obtain ⟨h1, h2, h3, h4, h5, -⟩ := hm c hc
      exact ⟨h1, h2, h3, h4, h5⟩, hch⟩
  | Code => exact chunk_code_lines_spec (rustLines content)
  | PlainText => exact chunk_plain_lines_spec (rustLines content)
  | Pdf => exact chunk_plain_lines_spec (rustLines content)
  | Docx => exact chunk_plain_lines_spec (rustLines content)
  | Xlsx => exact chunk_plain_lines_spec (rustLines content)
  | Unsupported =>
    exact ⟨fun c hc => absurd hc (List.not_mem_nil c), List.chain'_nil⟩

/-- C9: for every input and file type, every chunk has
`1 ≤ start_line ≤ end_line ≤ total line count`, and both bounds are
monotonically non-decreasing in file order. -/
theorem C9_line_ranges (content : String) (ft : FileType) :
    (∀ c ∈ chunk_text content ft,
      1 ≤ c.start_line ∧ c.start_line ≤ c.end_line ∧
      c.end_line ≤ (rustLines content).length) ∧
    List.Chain'
      (fun c1 c2 => c1.start_line ≤ c2.start_line ∧ c1.end_line ≤ c2.end_line)
      (chunk_text content ft) := by
  obtain ⟨hm, hch⟩ := chunk_text_spec content ft
  exact ⟨fun c hc => by
    obtain ⟨h1, h2, h3, -, -⟩ := hm c hc
    exact ⟨h1, h2, h3⟩, hch⟩

/-- Witness for C9 at a concrete input. -/
theorem C9_witness :
    1 ≤ (⟨"x", 1, 1, none⟩ : Chunk).start_line ∧
    (⟨"x", 1, 1, none⟩ : Chunk).start_line ≤ (⟨"x", 1, 1, none⟩ : Chunk).end_line ∧
    (⟨"x", 1, 1, none⟩ : Chunk).end_line ≤ (rustLines "x").length :=
  (C9_line_ranges "x" .PlainText).1 ⟨"x", 1, 1, none⟩ (by decide)

/-- C10: every chunk's content is exactly the newline-join of the input's
lines from `start_line` through `end_line` (1-indexed, inclusive). -/
theorem C10_content_matches_range (content : String) (ft : FileType) :
    ∀ c ∈ chunk_text content ft,
      c.content =
        joinNl (((rustLines content).drop (c.start_line - 1)).take
          (c.end_line + 1 - c.start_line)) := by
  intro c hc
  exact ((chunk_text_spec content ft).1 c hc).2.2.2.1

/-- Witness for C10 at a concrete input. -/
theorem C10_witness :
    (⟨"x", 1, 1, none⟩ : Chunk).content =
      joinNl (((rustLines "x").drop ((⟨"x", 1, 1, none⟩ : Chunk).start_line - 1)).take
        ((⟨"x", 1, 1, none⟩ : Chunk).end_line + 1 - (⟨"x", 1, 1, none⟩ : Chunk).start_line)) :=
  C10_content_matches_range "x" .PlainText ⟨"x", 1, 1, none⟩ (by decide)

/-- C4 amended: every chunk either keeps its estimate within the 500-token
cap, or was emitted by the forward scan, in which case the accumulated
weights (estimate + 1) of its lines short of the last stay below the
300-token target; the chunk's own estimate may still exceed the cap with no
single line exceeding it (see the counterexample). -/
theorem C4_cap_amended (content : String) (ft : FileType) :
    ∀ c ∈ chunk_text content ft,
      estimate_tokens c.content ≤ MAX_TOKENS ∨
        wsum (rustLines content) (c.start_line - 1) (c.end_line - 1) < TARGET_TOKENS := by
  intro c hc
  exact ((chunk_text_spec content ft).1 c hc).2.2.2.2

/-- Witness for C4's amended theorem at a concrete input. -/
theorem C4_witness :
    estimate_tokens (⟨"x", 1, 1, none⟩ : Chunk).content ≤ MAX_TOKENS ∨
      wsum (rustLines "x") ((⟨"x", 1, 1, none⟩ : Chunk).start_line - 1)
        ((⟨"x", 1, 1, none⟩ : Chunk).end_line - 1) < TARGET_TOKENS :=
  C4_cap_amended "x" .PlainText ⟨"x", 1, 1, none⟩ (by decide)

/-- C5 amended: consecutive chunks of a subdivided range overlap by at least
one line, except when the earlier chunk's lines past its first weigh less
than the 50-token overlap budget — then the later chunk starts exactly one
line after the earlier ends (zero overlap; in particular no single-line
chunk is ever overlapped). -/
theorem C5_overlap_amended (ls : List String) (b : Nat) (hd : Option String) :
    List.Chain'
      (fun c1 c2 => c2.start_line ≤ c1.end_line ∨
        (c2.start_line = c1.end_line + 1 ∧
          wsum ls (c1.start_line - b) (c1.end_line - b) < OVERLAP_TOKENS))
      (subdivide_lines ls b hd) :=
  (subdivide_chain ls b hd).imp (fun c1 c2 h => h.2.2)

/-- C8 amended: every markdown chunk's heading is the nearest preceding
heading line, stripped of its leading `#`s and surrounding whitespace and
wrapped in `Some` (possibly `some ""`), or `None` before the first heading
line. -/
theorem C8_heading_amended (content : String) :
    ∀ c ∈ chunk_markdown content,
      c.heading = headingFor (rustLines content) (c.start_line - 1) := by
  intro c hc
  exact ((chunk_markdown_lines_spec (rustLines content)).1 c hc).2.2.2.2.2

/-- Witness for C8's amended theorem at a concrete input. -/
theorem C8_witness :
    (⟨"# T\nbody", 1, 2, some "T"⟩ : Chunk).heading =
      headingFor (rustLines "# T\nbody")
        ((⟨"# T\nbody", 1, 2, some "T"⟩ : Chunk).start_line - 1) :=
  C8_heading_amended "# T\nbody" ⟨"# T\nbody", 1, 2, some "T"⟩ (by decide)

/-! ### Evaluating the chunker on the CJK counterexample lines

The counterexamples for C4 and C5 need line estimates in the hundreds, so
their inputs are hundreds of characters long; the token estimates and the
chunker runs are established by induction lemmas on `cjkChars` rather than
by kernel evaluation. -/

theorem charCountAux_cjkChars : ∀ n acc, charCountAux acc (cjkChars n) = acc + n := by
  intro n
  induction n with
  | zero => intro acc; rfl
  | succ m ih =>
    intro acc
    show charCountAux (acc + 1) (cjkChars m) = acc + (m + 1)
    rw [ih (acc + 1)]
    omega

theorem cjkCountAux_cjkChars : ∀ n acc, cjkCountAux is_cjk acc (cjkChars n) = acc + n := by
  intro n
  induction n with
  | zero => intro acc; rfl
  | succ m ih =>
    intro acc
    show cjkCountAux is_cjk (if is_cjk '日' then acc + 1 else acc) (cjkChars m) = acc + (m + 1)
    rw [if_pos (by decide), ih (acc + 1)]
    omega

theorem charCountAux_append :
    ∀ (l1 l2 : List Char) acc, charCountAux acc (l1 ++ l2) = charCountAux (charCountAux acc l1) l2 := by
  intro l1
  induction l1 with
  | nil => intro l2 acc; rfl
  | cons c rest ih => intro l2 acc; exact ih l2 (acc + 1)

theorem cjkCountAux_append :
    ∀ (l1 l2 : List Char) acc,
      cjkCountAux is_cjk acc (l1 ++ l2) = cjkCountAux is_cjk (cjkCountAux is_cjk acc l1) l2 := by
  intro l1
  induction l1 with
  | nil => intro l2 acc; rfl
  | cons c rest ih => intro l2 acc; exact ih l2 _

theorem toList_cjk_join (a b : Nat) :
    (cjkN a ++ "\n" ++ cjkN b).toList = cjkChars a ++ '\n' :: cjkChars b := by
  show (cjkN a ++ "\n" ++ cjkN b).data = _
  rw [String.data_append, String.data_append]
  show cjkChars a ++ ['\n'] ++ cjkChars b = _
  rw [List.append_assoc]
  rfl

theorem charCount_cjk_join (a b : Nat) :
    charCount (cjkN a ++ "\n" ++ cjkN b) = a + b + 1 := by
  unfold charCount
  rw [toList_cjk_join, charCountAux_append, charCountAux_cjkChars]
  show charCountAux (0 + a + 1) (cjkChars b) = a + b + 1
  rw [charCountAux_cjkChars]
  omega

theorem cjkCount_cjk_join (a b : Nat) :
    cjkCount (cjkN a ++ "\n" ++ cjkN b) = a + b := by
  unfold cjkCount
  rw [toList_cjk_join, cjkCountAux_append, cjkCountAux_cjkChars]
  show cjkCountAux is_cjk (if is_cjk '\n' then 0 + a + 1 else 0 + a) (cjkChars b) = a + b
  rw [if_neg (by decide), cjkCountAux_cjkChars]
  omega

theorem charCount_cjkN (n : Nat) : charCount (cjkN n) = n := by
  unfold charCount
  show charCountAux 0 (cjkChars n) = n
  rw [charCountAux_cjkChars]
  omega

theorem cjkCount_cjkN (n : Nat) : cjkCount (cjkN n) = n := by
  unfold cjkCount
  show cjkCountAux is_cjk 0 (cjkChars n) = n
  rw [cjkCountAux_cjkChars]
  omega

theorem est_cjkN (n : Nat) (h : 1 ≤ n) :
    estimate_tokens (cjkN n) = (n * 2 + 2) / 3 := by
  unfold estimate_tokens
  rw [charCount_cjkN, cjkCount_cjkN, if_pos (by omega)]

theorem est_cjk_join (a b : Nat) (h : 1 ≤ a + b) :
    estimate_tokens (cjkN a ++ "\n" ++ cjkN b) = ((a + b + 1) * 2 + 2) / 3 := by
  unfold estimate_tokens
  rw [charCount_cjk_join, cjkCount_cjk_join, if_pos (by omega)]

theorem cjkChars_append_one : ∀ n, cjkChars (n + 1) = cjkChars n ++ ['日'] := by
  intro n
  induction n with
  | zero => rfl
  | succ m ih =>
    show '日' :: cjkChars (m + 1) = ('日' :: cjkChars m) ++ ['日']
    rw [ih]
    rfl

theorem cjkChars_reverse : ∀ n, (cjkChars n).reverse = cjkChars n := by
  intro n
  induction n with
  | zero => rfl
  | succ m ih =>
    show ('日' :: cjkChars m).reverse = cjkChars (m + 1)
    rw [List.reverse_cons, ih, ← cjkChars_append_one]

theorem cjkChars_no_nl : ∀ n, ∀ c ∈ cjkChars n, c ≠ '\n' := by
  intro n
  induction n with
  | zero => intro c hc; exact absurd hc (List.not_mem_nil c)
  | succ m ih =>
    intro c hc
    rcases List.mem_cons.1 hc with rfl | hc
    · decide
    · exact ih c hc

theorem linesAux_no_nl :
    ∀ (l : List Char), (∀ c ∈ l, c ≠ '\n') → ∀ rcur rest,
      linesAux rcur (l ++ rest) = linesAux (l.reverse ++ rcur) rest := by
  intro l
  induction l with
  | nil => intro _ rcur rest; rfl
  | cons c cl ih =>
    intro hno rcur rest
    show (if c = '\n' then _ else linesAux (c :: rcur) (cl ++ rest)) = _
    rw [if_neg (hno c (List.mem_cons_self c cl))]
    rw [ih (fun x hx => hno x (List.mem_cons_of_mem c hx)) (c :: rcur) rest]
    rw [List.reverse_cons, List.append_assoc]
    rfl

theorem cjkN_ne_empty (n : Nat) : cjkN (n + 1) ≠ "" := by
  intro h
  have hdata : cjkChars (n + 1) = ([] : List Char) := congrArg String.data h
  exact absurd hdata (by simp [cjkChars])

theorem dropLastEmpty_two (x y : String) (hy : y ≠ "") :
    dropLastEmpty [x, y] = [x, y] := by
  show x :: dropLastEmpty [y] = [x, y]
  show x :: (if y = "" then [] else [y]) = [x, y]
  rw [if_neg hy]

theorem linesAux_nil (rcur : List Char) : linesAux rcur [] = [String.mk rcur.reverse] :=
  rfl

theorem linesAux_cjk_final (b : Nat) : linesAux [] (cjkChars b) = [cjkN b] := by
  rw [show cjkChars b = cjkChars b ++ [] from (List.append_nil _).symm,
    linesAux_no_nl (cjkChars b) (cjkChars_no_nl b) [] [], linesAux_nil,
    List.append_nil, List.reverse_reverse]
  rfl

theorem rustLines_cjk2 (a b : Nat) :
    rustLines (cjkN (a + 1) ++ "\n" ++ cjkN (b + 1)) = [cjkN (a + 1), cjkN (b + 1)] := by
  unfold rustLines
  rw [toList_cjk_join]
  rw [linesAux_no_nl (cjkChars (a + 1)) (cjkChars_no_nl (a + 1)) [] ('\n' :: cjkChars (b + 1))]
  rw [List.append_nil]
  show dropLastEmpty
      (if ('\n' : Char) = '\n'
       then String.mk (stripLeadCR ((cjkChars (a + 1)).reverse)).reverse ::
         linesAux [] (cjkChars (b + 1))
       else linesAux ('\n' :: (cjkChars (a + 1)).reverse) (cjkChars (b + 1))) = _
  rw [if_pos rfl, cjkChars_reverse]
  rw [show cjkChars (a + 1) = '日' :: cjkChars a from rfl]
  show dropLastEmpty
      (String.mk (if ('日' : Char) = '\r' then cjkChars a
                  else '日' :: cjkChars a).reverse :: linesAux [] (cjkChars (b + 1))) = _
  rw [if_neg (by decide),
    show ('日' :: cjkChars a) = cjkChars (a + 1) from rfl,
    cjkChars_reverse, linesAux_cjk_final]
  exact dropLastEmpty_two _ _ (cjkN_ne_empty b)

theorem rustTrim_cjkN (n : Nat) : rustTrim (cjkN (n + 1)) = cjkN (n + 1) := by
  unfold rustTrim
  show String.mk
      ((((cjkChars (n + 1)).dropWhile rustIsWhitespace).reverse.dropWhile
        rustIsWhitespace).reverse) = _
  rw [show cjkChars (n + 1) = '日' :: cjkChars n from rfl, List.dropWhile_cons,
    if_neg (by decide), show ('日' :: cjkChars n) = cjkChars (n + 1) from rfl,
    cjkChars_reverse, show cjkChars (n + 1) = '日' :: cjkChars n from rfl,
    List.dropWhile_cons, if_neg (by decide),
    show ('日' :: cjkChars n) = cjkChars (n + 1) from rfl, cjkChars_reverse]
  rfl

theorem rustTrim_cjkN_ne (n : Nat) : rustTrim (cjkN (n + 1)) ≠ "" := by
  rw [rustTrim_cjkN]
  exact cjkN_ne_empty n

/-- The paragraph loop on a two-line file with no blank line: one paragraph,
subdivided as a whole. -/
theorem chunkPlain_two (a b : String) (ha : rustTrim a ≠ "") (hb : rustTrim b ≠ "") :
    chunk_plain_lines [a, b] = subdivide_lines [a, b] 0 none := by
  show chunkPlainF [a, b] 2 0 0 false = _
  rw [chunkPlainF]
  rw [if_pos (show 0 < ([a, b] : List String).length from by simp)]
  rw [if_neg (show ¬(rustTrim (([a, b] : List String).getD 0 "") = "" ∧
      false = false ∧ 0 < 0) from fun h => absurd h.2.2 (by omega))]
  rw [chunkPlainF]
  rw [if_pos (show 1 < ([a, b] : List String).length from by simp)]
  rw [if_neg (show ¬(rustTrim (([a, b] : List String).getD 1 "") = "" ∧
      (decide (rustTrim (([a, b] : List String).getD 0 "") = "")) = false ∧ 0 < 1)
      from fun h => hb h.1)]
  rw [chunkPlainF]
  rw [if_pos (show 0 < ([a, b] : List String).length from by simp)]
  rw [List.drop_zero]

theorem lineTok_two_zero (a b : String) :
    lineTok [a, b] 0 = estimate_tokens a + 1 := rfl

theorem lineTok_two_one (a b : String) :
    lineTok [a, b] 1 = estimate_tokens b + 1 := rfl

theorem scanForward_two_zero_stop (a b : String)
    (ha : TARGET_TOKENS ≤ estimate_tokens a + 1) :
    scanForward [a, b] 0 0 = 1 := by
  show scanForwardF [a, b] 2 0 0 = 1
  rw [scanForwardF]
  rw [if_pos (show 0 < ([a, b] : List String).length ∧ 0 < TARGET_TOKENS from by
    constructor
    · simp
    · decide)]
  rw [scanForwardF]
  rw [if_neg (show ¬(1 < ([a, b] : List String).length ∧
      0 + lineTok [a, b] 0 < TARGET_TOKENS) from by
    rw [lineTok_two_zero]
    intro h
    omega)]

theorem scanForward_two_zero_go (a b : String)
    (ha : 0 + lineTok [a, b] 0 < TARGET_TOKENS) :
    scanForward [a, b] 0 0 = 2 := by
  show scanForwardF [a, b] 2 0 0 = 2
  rw [scanForwardF]
  rw [if_pos (show 0 < ([a, b] : List String).length ∧ 0 < TARGET_TOKENS from by
    constructor
    · simp
    · decide)]
  rw [scanForwardF]
  rw [if_pos (show 1 < ([a, b] : List String).length ∧
      0 + lineTok [a, b] 0 < TARGET_TOKENS from ⟨by simp, ha⟩)]
  rfl

theorem scanForward_two_one (a b : String) : scanForward [a, b] 1 0 = 2 := by
  show scanForwardF [a, b] 1 1 0 = 2
  rw [scanForwardF]
  rw [if_pos (show 1 < ([a, b] : List String).length ∧ 0 < TARGET_TOKENS from by
    constructor
    · simp
    · decide)]
  rfl

theorem scanBack_two (a b : String) : scanBack [a, b] 0 1 0 = 0 := by
  show scanBackF [a, b] 0 1 1 0 = 0
  rw [scanBackF]
  rw [if_pos (show 0 < 1 ∧ 0 < OVERLAP_TOKENS from by decide)]
  rfl

/-- Subdividing an oversized two-line range whose first line stops the scan:
two single-line chunks with no shared line. -/
theorem subdivide_two_split (a b : String)
    (hover : ¬ estimate_tokens (a ++ "\n" ++ b) ≤ MAX_TOKENS)
    (ha : TARGET_TOKENS ≤ estimate_tokens a + 1) :
    subdivide_lines [a, b] 0 none = [⟨a, 1, 1, none⟩, ⟨b, 2, 2, none⟩] := by
  unfold subdivide_lines
  rw [if_neg (show ¬([a, b] : List String).isEmpty = true from by simp)]
  rw [show joinNl [a, b] = a ++ "\n" ++ b from rfl]
  rw [if_neg hover]
  show subLoopF [a, b] 0 none 2 0 = _
  rw [subLoopF]
  rw [if_pos (show 0 < ([a, b] : List String).length from by simp)]
  rw [scanForward_two_zero_stop a b ha]
  rw [if_neg (show ¬([a, b] : List String).length ≤ 1 from by simp)]
  rw [scanBack_two]
  rw [if_neg (show ¬(0 < 0) from by omega)]
  rw [subLoopF]
  rw [if_pos (show 1 < ([a, b] : List String).length from by simp)]
  rw [scanForward_two_one]
  rw [if_pos (show ([a, b] : List String).length ≤ 2 from by simp)]
  rfl

/-- Subdividing an oversized two-line range whose first line leaves the scan
running: a single chunk covering both lines, estimate above the cap. -/
theorem subdivide_two_over (a b : String)
    (hover : ¬ estimate_tokens (a ++ "\n" ++ b) ≤ MAX_TOKENS)
    (ha : 0 + lineTok [a, b] 0 < TARGET_TOKENS) :
    subdivide_lines [a, b] 0 none = [⟨a ++ "\n" ++ b, 1, 2, none⟩] := by
  unfold subdivide_lines
  rw [if_neg (show ¬([a, b] : List String).isEmpty = true from by simp)]
  rw [show joinNl [a, b] = a ++ "\n" ++ b from rfl]
  rw [if_neg hover]
  show subLoopF [a, b] 0 none 2 0 = _
  rw [subLoopF]
  rw [if_pos (show 0 < ([a, b] : List String).length from by simp)]
  rw [scanForward_two_zero_go a b ha]
  rw [if_pos (show ([a, b] : List String).length ≤ 2 from by simp)]
  rfl

/-- C4 counterexample: two CJK lines estimating 250 and 251 tokens are
emitted as one chunk whose own estimate is 501 — above the 500-token cap —
while no single line of the chunk exceeds the cap. -/
theorem C4_counterexample : ¬ capClaim t4 FileType.PlainText := by
  have h374 : estimate_tokens (cjkN 374) = 250 := by
    rw [est_cjkN 374 (by omega)]
  have h376 : estimate_tokens (cjkN 376) = 251 := by
    rw [est_cjkN 376 (by omega)]
  have hJ : estimate_tokens (cjkN 374 ++ "\n" ++ cjkN 376) = 501 := by
    rw [est_cjk_join 374 376 (by omega)]
  have hlines : rustLines t4 = [cjkN 374, cjkN 376] := rustLines_cjk2 373 375
  have hchunks : chunk_text t4 FileType.PlainText = [⟨t4, 1, 2, none⟩] := by
    show chunk_plain t4 = _
    unfold chunk_plain
    rw [hlines,
      chunkPlain_two (cjkN 374) (cjkN 376) (rustTrim_cjkN_ne 373) (rustTrim_cjkN_ne 375),
      subdivide_two_over (cjkN 374) (cjkN 376)
        (by rw [hJ]; decide)
        (by rw [lineTok_two_zero, h374]; decide)]
    rfl
  have hmax : MAX_TOKENS = 500 := rfl
  intro hcl
  have := hcl ⟨t4, 1, 2, none⟩ (by rw [hchunks]; exact List.mem_singleton.2 rfl)
  rcases this with h | ⟨l, hl, hover⟩
  · have h501 : estimate_tokens t4 = 501 := hJ
    dsimp only at h
    omega
  · dsimp only at hl
    rw [hlines] at hl
    rcases List.mem_cons.1 hl with rfl | hl
    · rw [h374] at hover
      omega
    · rcases List.mem_cons.1 hl with rfl | hl
      · rw [h376] at hover
        omega
      · exact absurd hl (List.not_mem_nil l)

set_option maxRecDepth 10000 in
/-- C5 counterexample: a two-line range weighing 501 estimated tokens (well
above the overlap budget) subdivides into two chunks `[1,1]` and `[2,2]`
that share no line — the backward scan fell back to the first chunk's start
(a single-line chunk is never overlapped). -/
theorem C5_counterexample : ¬ overlapClaim lsC5 0 none := by
  have h448 : estimate_tokens (cjkN 448) = 299 := by
    rw [est_cjkN 448 (by omega)]
  have hJ : estimate_tokens (cjkN 448 ++ "\n" ++ cjkN 302) = 501 := by
    rw [est_cjk_join 448 302 (by omega)]
  have hsub : subdivide_lines lsC5 0 none =
      [⟨cjkN 448, 1, 1, none⟩, ⟨cjkN 302, 2, 2, none⟩] :=
    subdivide_two_split (cjkN 448) (cjkN 302)
      (by rw [hJ]; decide)
      (by rw [h448]; decide)
  intro hcl
  have hhyp : OVERLAP_TOKENS ≤ estimate_tokens (joinNl lsC5) := by
    rw [show joinNl lsC5 = cjkN 448 ++ "\n" ++ cjkN 302 from rfl, hJ]
    decide
  unfold overlapClaim at hcl
  have hchain := hcl hhyp
  rw [hsub] at hchain
  have := (List.chain'_cons.1 hchain).1
  dsimp only at this
  omega

end Inkess
